import Mathlib

/-!
Verification of the yib imageboard's post/moderation pipeline.

Shallow embedding of the Go source: the challenge store
(models/services.go), the ban gate and evasion auto-banning
(handlers/actions.go, database layer), the post-creation transaction
(handlers/actions.go HandlePost), post deletion (database layer
DeletePost), the media pipeline (handlers/actions.go processImage) and
the content renderer (handlers/actions.go processContent).

Machine integers are modelled as Nat/Int; timestamps as Nat seconds;
SQL NULL as Option; byte strings as List Nat; fallible external calls
as explicit outcome parameters.
-/

namespace Yib

/-- utils.BtoI: boolean to integer. -/
def btoI (b : Bool) : Int := if b then 1 else 0

/-! ## Challenge store (models/services.go)

`ChallengeStore.Verify` takes the write lock, reads the map entry,
deletes it unconditionally, and only then compares the answer.
`GenerateChallenge` inserts a fresh token and schedules deletion
5 minutes (300 s) later via `time.AfterFunc`; the timer is modelled as
firing punctually whenever time advances past the deadline. -/

structure Challenge where
  token : String
  answer : String
  genTime : Nat
  deadline : Nat
  deriving DecidableEq, Repr

structure ChallengeStore where
  now : Nat
  challenges : List Challenge
  deriving DecidableEq, Repr

/-- models/services.go Verify: look the token up, delete it regardless
of correctness, then compare the stored answer. -/
def verifyChallenge (s : ChallengeStore) (token answer : String) :
    Bool × ChallengeStore :=
  let entry := s.challenges.find? (fun c => c.token = token)
  let s' : ChallengeStore :=
    { s with challenges := s.challenges.filter (fun c => c.token ≠ token) }
  match entry with
  | none => (false, s')
  | some c => ((answer = c.answer : Bool), s')

/-- models/services.go GenerateChallenge: store the answer under a fresh
token and schedule its deletion 300 seconds later. -/
def generateChallenge (s : ChallengeStore) (token answer : String) :
    ChallengeStore :=
  { s with challenges := ⟨token, answer, s.now, s.now + 300⟩ :: s.challenges }

/-- Advance time by `d`; every AfterFunc timer whose deadline has been
reached fires and deletes its token. -/
def tickChallenges (s : ChallengeStore) (d : Nat) : ChallengeStore :=
  { now := s.now + d
    challenges := s.challenges.filter (fun c => s.now + d < c.deadline) }

inductive CSStep : ChallengeStore → ChallengeStore → Prop
  | tick (s : ChallengeStore) (d : Nat) : CSStep s (tickChallenges s d)
  | gen (s : ChallengeStore) (token answer : String) :
      CSStep s (generateChallenge s token answer)
  | verify (s : ChallengeStore) (token answer : String) :
      CSStep s (verifyChallenge s token answer).2

/-- States reachable from the empty store. -/
inductive CSReachable : ChallengeStore → Prop
  | init : CSReachable ⟨0, []⟩
  | step {s s' : ChallengeStore} : CSReachable s → CSStep s s' → CSReachable s'

/-- Store invariant: every live challenge expires exactly 300 s after
generation and has not yet expired. -/
def csInv (s : ChallengeStore) : Prop :=
  ∀ c ∈ s.challenges, c.deadline = c.genTime + 300 ∧ s.now < c.deadline

theorem csInv_init : csInv ⟨0, []⟩ := by
  intro c hc
  simp at hc

theorem verifyChallenge_snd (s : ChallengeStore) (token answer : String) :
    (verifyChallenge s token answer).2 =
      { s with challenges :=
          s.challenges.filter (fun c => c.token ≠ token) } := by
  simp only [verifyChallenge]
  rcases hfind : s.challenges.find? (fun c => c.token = token) with _ | e <;>
    rw [hfind]

theorem verifyChallenge_not_found (s : ChallengeStore) (token a : String)
    (h : s.challenges.find? (fun c => c.token = token) = none) :
    (verifyChallenge s token a).1 = false := by
  simp only [verifyChallenge]
  rw [h]

theorem csInv_step {s s' : ChallengeStore} (h : csInv s) (hs : CSStep s s') :
    csInv s' := by
  cases hs with
  | tick d =>
      intro c hc
      simp only [tickChallenges, List.mem_filter] at hc
      obtain ⟨hmem, hlt⟩ := hc
      exact ⟨(h c hmem).1, by simpa using hlt⟩
  | gen token answer =>
      intro c hc
      simp only [generateChallenge, List.mem_cons] at hc
      have hnow : (generateChallenge s token answer).now = s.now := rfl
      rw [hnow]
      rcases hc with rfl | hmem
      · exact ⟨rfl, by show s.now < s.now + 300; omega⟩
      · exact h c hmem
  | verify token answer =>
      intro c hc
      rw [verifyChallenge_snd] at hc
      simp only [List.mem_filter] at hc
      have hnow : (verifyChallenge s token answer).2.now = s.now := by
        rw [verifyChallenge_snd]
      rw [hnow]
      exact h c hc.1

theorem csInv_reachable {s : ChallengeStore} (h : CSReachable s) : csInv s := by
  induction h with
  | init => exact csInv_init
  | step _ hs ih => exact csInv_step ih hs

theorem verify_deletes (s : ChallengeStore) (token answer : String) :
    (verifyChallenge s token answer).2.challenges.find?
      (fun c => c.token = token) = none := by
  rw [verifyChallenge_snd]
  refine List.find?_eq_none.mpr (fun c hc => ?_)
  simp only [List.mem_filter] at hc
  simpa using hc.2

/-- C7: a challenge token is consumed by the first Verify call regardless
of the answer, so a second Verify with the same token returns false even
with the correct answer; and a successful verification can only happen
strictly within 300 seconds (5 minutes) of the token's generation, in any
reachable store. -/
theorem challenge_single_use_and_expiry
    (s : ChallengeStore) (hs : CSReachable s) (token a a' : String) :
    (verifyChallenge (verifyChallenge s token a).2 token a').1 = false ∧
    ((verifyChallenge s token a).1 = true →
      ∃ c ∈ s.challenges, c.token = token ∧ s.now < c.genTime + 300) := by
  constructor
  · exact verifyChallenge_not_found _ token a' (verify_deletes s token a)
  · intro hok
    rcases hfind : s.challenges.find? (fun c => c.token = token) with _ | c
    · simp only [verifyChallenge] at hok
      rw [hfind] at hok
      simp at hok
    · have hmem : c ∈ s.challenges := List.mem_of_find?_eq_some hfind
      have htok : c.token = token := by
        have := List.find?_some hfind
        simpa using this
      have hinv := csInv_reachable hs c hmem
      exact ⟨c, hmem, htok, by omega⟩

/-- Witness for `challenge_single_use_and_expiry` at a concrete reachable
store: generate a token at time 0, then verify it twice. -/
theorem challenge_single_use_witness :
    (verifyChallenge
      (verifyChallenge (generateChallenge ⟨0, []⟩ "tok" "7") "tok" "7").2
      "tok" "7").1 = false := by
  have h := challenge_single_use_and_expiry
    (generateChallenge ⟨0, []⟩ "tok" "7")
    (CSReachable.step CSReachable.init (CSStep.gen ⟨0, []⟩ "tok" "7"))
    "tok" "7" "7"
  exact h.1

/-! ## Bans and evasion auto-banning

The bans table (database/schema.go) has a unique index on
(hash, ban_type).  `GetBanDetails` first looks for an active exact-match
ip/cookie ban ordered by created_at descending, then scans active
cidr-type bans testing subnet containment (modelled by an abstract
`cidrContains` predicate).  `CreateBan` upserts on (hash, ban_type).
The evasion logic is the ban block at the top of HandlePost
(handlers/actions.go): a cookie ban with a clean IP mirrors onto the IP,
an ip/cidr ban with a clean cookie mirrors onto the cookie, and a failed
mirror write is logged without changing the rejection response. -/

structure Ban where
  hash : String
  banType : String
  reason : String
  createdAt : Nat
  expiresAt : Option Nat
  deriving DecidableEq, Repr

/-- `expires_at IS NULL OR expires_at > now`. -/
def banActive (now : Nat) (b : Ban) : Bool :=
  match b.expiresAt with
  | none => true
  | some t => now < t

/-- Rows matched by GetBanDetails' exact query. -/
def exactBanMatches (bans : List Ban) (now : Nat) (ipHash cookieHash : String) :
    List Ban :=
  bans.filter (fun b => banActive now b &&
    ((b.hash == ipHash && b.banType == "ip") ||
     (b.hash == cookieHash && b.banType == "cookie")))

/-- `ORDER BY created_at DESC LIMIT 1`: a row with maximal created_at
(the leftmost one among ties). -/
def latestBan : List Ban → Option Ban
  | [] => none
  | b :: rest =>
      match latestBan rest with
      | none => some b
      | some c => if c.createdAt > b.createdAt then some c else some b

/-- database GetBanDetails: exact ip/cookie match first, then the CIDR
scan (which stamps the returned ban's type as "cidr"). -/
def getBanDetails (bans : List Ban) (now : Nat) (ip ipHash cookieHash : String)
    (cidrContains : String → String → Bool) : Option Ban :=
  match latestBan (exactBanMatches bans now ipHash cookieHash) with
  | some b => some b
  | none =>
      match (bans.filter (fun b => b.banType == "cidr" && banActive now b)).find?
          (fun b => cidrContains b.hash ip) with
      | some b => some { b with banType := "cidr" }
      | none => none

/-- database IsHashBanned: an active ban with this hash and type exists. -/
def isHashBanned (bans : List Ban) (now : Nat) (hash btype : String) : Bool :=
  bans.any (fun b => b.hash == hash && b.banType == btype && banActive now b)

/-- database CreateBan: insert, or on (hash, ban_type) conflict update
reason and expiry. -/
def createBan (bans : List Ban) (now : Nat) (hash btype reason : String)
    (expiresAt : Option Nat) : List Ban :=
  if bans.any (fun b => b.hash == hash && b.banType == btype) then
    bans.map (fun b =>
      if b.hash == hash && b.banType == btype then
        { b with reason := reason, expiresAt := expiresAt }
      else b)
  else
    bans ++ [⟨hash, btype, reason, now, expiresAt⟩]

inductive BanStageResult where
  | rejected (reason : String) (expiresAt : Option Nat)
  | proceed
  deriving DecidableEq, Repr

/-- The ban block of HandlePost: on a match, mirror the ban onto the
clean identity axis (each mirror write may fail, modelled by the two
`Ok` flags; failure is logged only), then reject.  No match proceeds. -/
def banStage (bans : List Ban) (now : Nat) (ip ipHash cookieHash : String)
    (cidrContains : String → String → Bool) (ipBanOk cookieBanOk : Bool) :
    BanStageResult × List Ban :=
  match getBanDetails bans now ip ipHash cookieHash cidrContains with
  | none => (.proceed, bans)
  | some ban =>
      let isIPBanned := isHashBanned bans now ipHash "ip"
      let bans1 :=
        if ban.banType == "cookie" && !isIPBanned && ipBanOk then
          createBan bans now ipHash "ip" ban.reason ban.expiresAt
        else bans
      let isCookieBanned := isHashBanned bans1 now cookieHash "cookie"
      let bans2 :=
        if (ban.banType == "ip" || ban.banType == "cidr") && !isCookieBanned
            && cookieBanOk then
          createBan bans1 now cookieHash "cookie" ban.reason ban.expiresAt
        else bans1
      (.rejected ban.reason ban.expiresAt, bans2)

theorem latestBan_mem {l : List Ban} {b : Ban} (h : latestBan l = some b) :
    b ∈ l := by
  induction l with
  | nil => simp [latestBan] at h
  | cons x rest ih =>
      simp only [latestBan] at h
      rcases hr : latestBan rest with _ | c <;> rw [hr] at h
      · simp at h
        simp [h]
      · by_cases hgt : c.createdAt > x.createdAt
        · simp [hgt] at h
          exact List.mem_cons_of_mem x (ih (h ▸ hr))
        · simp [hgt] at h
          simp [h]

theorem latestBan_of_ne_nil {l : List Ban} (h : l ≠ []) :
    ∃ b, latestBan l = some b := by
  cases l with
  | nil => exact absurd rfl h
  | cons x rest =>
      simp only [latestBan]
      rcases latestBan rest with _ | c
      · exact ⟨x, rfl⟩
      · by_cases hgt : c.createdAt > x.createdAt <;> simp [hgt]

/-- Keys that the unique index idx_bans_hash_type constrains. -/
def banKey (b : Ban) : String × String := (b.hash, b.banType)

/-- A bans table respecting the unique index: no two rows share
(hash, ban_type). -/
def bansUnique (bans : List Ban) : Prop :=
  bans.Pairwise (fun a b => banKey a ≠ banKey b)

theorem createBan_preserves {bans : List Ban} {b : Ban} (hb : b ∈ bans)
    (now : Nat) (hash btype reason : String) (expiresAt : Option Nat)
    (hne : banKey b ≠ (hash, btype)) :
    b ∈ createBan bans now hash btype reason expiresAt := by
  have hcond : (b.hash == hash && b.banType == btype) = false := by
    simp only [banKey, Prod.mk.injEq] at hne
    by_cases h1 : b.hash = hash <;> by_cases h2 : b.banType = btype <;>
      simp [h1, h2] at hne ⊢
  unfold createBan
  by_cases hany : bans.any (fun b => b.hash == hash && b.banType == btype)
  · simp only [hany, if_true]
    have := List.mem_map_of_mem (fun b : Ban =>
      if b.hash == hash && b.banType == btype then
        { b with reason := reason, expiresAt := expiresAt }
      else b) hb
    simpa [hcond] using this
  · simp only [hany, if_false]
    exact List.mem_append_left _ hb

theorem createBan_creates (bans : List Ban) (now : Nat)
    (hash btype reason : String) (expiresAt : Option Nat) :
    ∃ b ∈ createBan bans now hash btype reason expiresAt,
      b.hash = hash ∧ b.banType = btype ∧ b.reason = reason ∧
      b.expiresAt = expiresAt := by
  unfold createBan
  by_cases hany : bans.any (fun b => b.hash == hash && b.banType == btype)
  · simp only [hany, if_true]
    rw [List.any_eq_true] at hany
    obtain ⟨b0, hb0, hcond⟩ := hany
    simp only [Bool.and_eq_true, beq_iff_eq] at hcond
    refine ⟨{ b0 with reason := reason, expiresAt := expiresAt }, ?_, ?_⟩
    · have := List.mem_map_of_mem (fun b : Ban =>
        if b.hash == hash && b.banType == btype then
          { b with reason := reason, expiresAt := expiresAt }
        else b) hb0
      simpa [hcond.1, hcond.2] using this
    · exact ⟨hcond.1, hcond.2, rfl, rfl⟩
  · simp only [hany, if_false]
    exact ⟨⟨hash, btype, reason, now, expiresAt⟩, by simp, rfl, rfl, rfl, rfl⟩

theorem mem_exactBanMatches {bans : List Ban} {now : Nat}
    {ipHash cookieHash : String} {b : Ban}
    (h : b ∈ exactBanMatches bans now ipHash cookieHash) :
    b ∈ bans ∧ banActive now b = true ∧
      ((b.hash = ipHash ∧ b.banType = "ip") ∨
       (b.hash = cookieHash ∧ b.banType = "cookie")) := by
  simp only [exactBanMatches, List.mem_filter, Bool.and_eq_true, Bool.or_eq_true,
    beq_iff_eq] at h
  exact ⟨h.1, h.2.1, h.2.2⟩

theorem banActive_of_expiry {now : Nat} {b c : Ban}
    (h : b.expiresAt = c.expiresAt) (hc : banActive now c = true) :
    banActive now b = true := by
  unfold banActive at hc ⊢
  rw [h]
  exact hc

/-- If the cookie hash has a (unique-index) active cookie ban and the IP
hash has no active ip ban, GetBanDetails returns exactly that cookie ban. -/
theorem getBanDetails_cookie {bans : List Ban} {now : Nat} (ip : String)
    {ipHash cookieHash : String} (cidrContains : String → String → Bool)
    {cb : Ban} (hU : bansUnique bans) (hmem : cb ∈ bans)
    (hh : cb.hash = cookieHash) (ht : cb.banType = "cookie")
    (hact : banActive now cb = true)
    (hip : isHashBanned bans now ipHash "ip" = false) :
    getBanDetails bans now ip ipHash cookieHash cidrContains = some cb := by
  have hcbm : cb ∈ exactBanMatches bans now ipHash cookieHash := by
    simp only [exactBanMatches, List.mem_filter, Bool.and_eq_true,
      Bool.or_eq_true, beq_iff_eq]
    exact ⟨hmem, hact, Or.inr ⟨hh, ht⟩⟩
  obtain ⟨b, hb⟩ := latestBan_of_ne_nil (l := exactBanMatches bans now ipHash cookieHash)
    (by intro hnil; rw [hnil] at hcbm; simp at hcbm)
  obtain ⟨hbbans, hbact, hbcase⟩ := mem_exactBanMatches (latestBan_mem hb)
  have hbck : b.hash = cookieHash ∧ b.banType = "cookie" := by
    rcases hbcase with ⟨h1, h2⟩ | hck
    · exfalso
      have : isHashBanned bans now ipHash "ip" = true := by
        simp only [isHashBanned, List.any_eq_true]
        exact ⟨b, hbbans, by simp [h1, h2, hbact]⟩
      rw [this] at hip
      simp at hip
    · exact hck
  have hbeq : b = cb := by
    by_contra hne
    have hsym : Symmetric (fun a b : Ban => banKey a ≠ banKey b) :=
      fun a b h => fun he => h he.symm
    have := hU.forall hsym hbbans hmem hne
    apply this
    simp only [banKey, hbck.1, hbck.2, hh, ht]
  unfold getBanDetails
  rw [hb, hbeq]

/-- C5: a post attempt matched by a cookie ban while the IP carries no
active ip ban is rejected and, via evasion auto-banning, leaves both the
cookie hash and the IP hash actively banned with identical reason and
expiry; symmetrically an ip/cidr match with a clean cookie hash creates a
mirroring cookie ban; and the success or failure of the mirror writes
never changes the rejection response. -/
theorem evasion_auto_ban
    (bans : List Ban) (now : Nat) (ip ipHash cookieHash : String)
    (cidrContains : String → String → Bool) (hU : bansUnique bans) :
    (∀ cb ∈ bans, cb.hash = cookieHash → cb.banType = "cookie" →
      banActive now cb = true →
      isHashBanned bans now ipHash "ip" = false →
      ∀ cookieBanOk,
        (banStage bans now ip ipHash cookieHash cidrContains true cookieBanOk).1 =
            .rejected cb.reason cb.expiresAt ∧
        cb ∈ (banStage bans now ip ipHash cookieHash cidrContains true cookieBanOk).2 ∧
        ∃ bi ∈ (banStage bans now ip ipHash cookieHash cidrContains true cookieBanOk).2,
          bi.hash = ipHash ∧ bi.banType = "ip" ∧
          bi.reason = cb.reason ∧ bi.expiresAt = cb.expiresAt ∧
          banActive now bi = true) ∧
    (∀ ban, getBanDetails bans now ip ipHash cookieHash cidrContains = some ban →
      (ban.banType = "ip" ∨ ban.banType = "cidr") →
      isHashBanned bans now cookieHash "cookie" = false →
      ∀ ipBanOk,
        (banStage bans now ip ipHash cookieHash cidrContains ipBanOk true).1 =
            .rejected ban.reason ban.expiresAt ∧
        ∃ bc ∈ (banStage bans now ip ipHash cookieHash cidrContains ipBanOk true).2,
          bc.hash = cookieHash ∧ bc.banType = "cookie" ∧
          bc.reason = ban.reason ∧ bc.expiresAt = ban.expiresAt) ∧
    (∀ o1 o2 o1' o2',
      (banStage bans now ip ipHash cookieHash cidrContains o1 o2).1 =
      (banStage bans now ip ipHash cookieHash cidrContains o1' o2').1) := by
  refine ⟨?_, ?_, ?_⟩
  · intro cb hmem hh ht hact hip cookieBanOk
    have hgd := getBanDetails_cookie ip cidrContains hU hmem hh ht hact hip
    have hstage : banStage bans now ip ipHash cookieHash cidrContains true cookieBanOk =
        (.rejected cb.reason cb.expiresAt,
          createBan bans now ipHash "ip" cb.reason cb.expiresAt) := by
      simp only [banStage, hgd, hip, ht]
      simp
    rw [hstage]
    refine ⟨rfl, ?_, ?_⟩
    · exact createBan_preserves hmem now ipHash "ip" cb.reason cb.expiresAt
        (by simp [banKey, ht])
    · obtain ⟨bi, hbi, h1, h2, h3, h4⟩ :=
        createBan_creates bans now ipHash "ip" cb.reason cb.expiresAt
      exact ⟨bi, hbi, h1, h2, h3, h4, banActive_of_expiry h4 hact⟩
  · intro ban hgd ht hck ipBanOk
    have hnotc : (ban.banType == "cookie") = false := by
      rcases ht with h | h <;> simp [h]
    have hic : (ban.banType == "ip" || ban.banType == "cidr") = true := by
      rcases ht with h | h <;> simp [h]
    have hstage : banStage bans now ip ipHash cookieHash cidrContains ipBanOk true =
        (.rejected ban.reason ban.expiresAt,
          createBan bans now cookieHash "cookie" ban.reason ban.expiresAt) := by
      simp only [banStage, hgd]
      rw [hnotc]
      simp only [Bool.false_and, Bool.and_false, if_false, Bool.false_eq_true,
        ite_false]
      rw [hic, hck]
      simp
    rw [hstage]
    obtain ⟨bc, hbc, h1, h2, h3, h4⟩ :=
      createBan_creates bans now cookieHash "cookie" ban.reason ban.expiresAt
    exact ⟨rfl, bc, hbc, h1, h2, h3, h4⟩
  · intro o1 o2 o1' o2'
    rcases h : getBanDetails bans now ip ipHash cookieHash cidrContains with _ | ban <;>
      simp [banStage, h]

/-- Witness for `evasion_auto_ban`: a single active cookie ban, a clean
IP, and a post attempt at time 50. -/
theorem evasion_auto_ban_witness :
    (banStage [⟨"CH", "cookie", "spam", 10, some 100⟩] 50 "1.2.3.4" "IH" "CH"
        (fun _ _ => false) true true).1 =
      BanStageResult.rejected "spam" (some 100) ∧
    (⟨"CH", "cookie", "spam", 10, some 100⟩ : Ban) ∈
      (banStage [⟨"CH", "cookie", "spam", 10, some 100⟩] 50 "1.2.3.4" "IH" "CH"
        (fun _ _ => false) true true).2 ∧
    ∃ bi ∈ (banStage [⟨"CH", "cookie", "spam", 10, some 100⟩] 50 "1.2.3.4" "IH"
        "CH" (fun _ _ => false) true true).2,
      bi.hash = "IH" ∧ bi.banType = "ip" ∧ bi.reason = "spam" ∧
      bi.expiresAt = some 100 ∧ banActive 50 bi = true :=
  (evasion_auto_ban [⟨"CH", "cookie", "spam", 10, some 100⟩] 50 "1.2.3.4" "IH"
      "CH" (fun _ _ => false)
      (by unfold bansUnique; exact List.pairwise_singleton _ _)).1
    ⟨"CH", "cookie", "spam", 10, some 100⟩ (by decide) rfl rfl (by decide)
    (by decide) true

/-! ## Content rendering (handlers/actions.go processContent)

`processContent` HTML-escapes the raw input, applies the markdown
regexes (longer delimiters first), replaces `&gt;&gt;<digits>` with a
backlink anchor, wraps lines that start with `&gt;` but not `&gt;&gt;`
in the greentext span, and joins lines with `<br>`.  Strings are
modelled as `List Char`; each Go regexp's
leftmost-first/non-overlapping `ReplaceAllString` behaviour is spelled
out as a scanner. -/

/-- html/template HTMLEscapeString, character by character. -/
def escapeChar (c : Char) : List Char :=
  if c = '&' then "&amp;".data
  else if c = '\'' then "&#39;".data
  else if c = '<' then "&lt;".data
  else if c = '>' then "&gt;".data
  else if c = '"' then "&#34;".data
  else [c]

def escapeList (l : List Char) : List Char :=
  l.foldr (fun c acc => escapeChar c ++ acc) []

theorem length_dropWhile_le (p : Char → Bool) (l : List Char) :
    (l.dropWhile p).length ≤ l.length := by
  induction l with
  | nil => simp
  | cons a t ih =>
      by_cases h : p a <;> simp [List.dropWhile_cons, h] <;> omega

theorem drop_dropWhile_lt (p : Char → Bool) (n : Nat) (rest : List Char)
    (hn : 0 < n) (m : Nat) (hm : rest.length < m) :
    ((rest.dropWhile p).drop n).length < m := by
  have h1 := length_dropWhile_le p rest
  simp only [List.length_drop]
  omega

/-- One Go regexp pass of the form `dd([^d]+?)dd` (spoiler, strike,
bold, double-underscore): leftmost match first, on failure the scan
restarts one character later, on success it continues after the match;
the capture is wrapped between `pre` and `post`. -/
def replaceDouble (d : Char) (pre post : List Char) : List Char → List Char
  | [] => []
  | c :: rest =>
      if c = d then
        match rest with
        | [] => [c]
        | c2 :: r2 =>
            if c2 = d then
              let content := r2.takeWhile (· ≠ d)
              let after := r2.dropWhile (· ≠ d)
              if content ≠ [] ∧ after[1]? = some d then
                pre ++ content ++ post ++ replaceDouble d pre post (after.drop 2)
              else c :: replaceDouble d pre post (c2 :: r2)
            else c :: replaceDouble d pre post (c2 :: r2)
      else c :: replaceDouble d pre post rest
termination_by l => l.length
decreasing_by
  · exact drop_dropWhile_lt _ 2 _ (by omega) _ (by simp only [List.length_cons]; omega)
  · simp only [List.length_cons]
    omega
  · simp only [List.length_cons]
    omega
  · simp

/-- One Go regexp pass of the form `d([^d]+?)d` (single-asterisk and
single-underscore italics). -/
def replaceSingle (d : Char) (pre post : List Char) : List Char → List Char
  | [] => []
  | c :: rest =>
      if c = d then
        let content := rest.takeWhile (· ≠ d)
        let after := rest.dropWhile (· ≠ d)
        if content ≠ [] ∧ after ≠ [] then
          pre ++ content ++ post ++ replaceSingle d pre post (after.drop 1)
        else c :: replaceSingle d pre post rest
      else c :: replaceSingle d pre post rest
termination_by l => l.length
decreasing_by
  · exact drop_dropWhile_lt _ 1 _ (by omega) _ (by simp only [List.length_cons]; omega)
  · simp
  · simp

/-- handlers/actions.go applyMarkdownFormatting: the six regex passes in
source order (longer patterns first). -/
def applyMarkdownFormatting (l : List Char) : List Char :=
  let s1 := replaceDouble '|' "<span class=\"spoiler\">".data "</span>".data l
  let s2 := replaceDouble '~' "<span class=\"strikethrough\">".data "</span>".data s1
  let s3 := replaceDouble '*' "<strong>".data "</strong>".data s2
  let s4 := replaceDouble '_' "<span class=\"underline\">".data "</span>".data s3
  let s5 := replaceSingle '*' "<em>".data "</em>".data s4
  replaceSingle '_' "<em>".data "</em>".data s5

/-- The escaped quote marker `&gt;&gt;` that reQuoteLinks requires. -/
def quoteMarker : List Char := ['&', 'g', 't', ';', '&', 'g', 't', ';']

/-- A reQuoteLinks match attempt at the head of `s`: the literal
`&gt;&gt;` followed by one or more digits.  Returns the digits and the
rest after the match. -/
def tryRef (s : List Char) : Option (List Char × List Char) :=
  if s.take 8 = quoteMarker then
    let ds := (s.drop 8).takeWhile (·.isDigit)
    if ds = [] then none else some (ds, s.drop (8 + ds.length))
  else none

/-- The opening characters of the backlink anchor replacement. -/
def anchorHead : List Char := '<' :: 'a' :: " href=\"#p".data

/-- The replacement reQuoteLinks substitutes for a match on digits `ds`. -/
def anchorFor (ds : List Char) : List Char :=
  anchorHead ++ ds ++ "\" class=\"backlink\" data-post=\"".data ++ ds
    ++ "\">&gt;&gt;".data ++ ds ++ "</a>".data

theorem tryRef_shrink {s ds r : List Char} (h : tryRef s = some (ds, r)) :
    r.length < s.length := by
  unfold tryRef at h
  split at h
  · rename_i htake
    dsimp only at h
    split at h
    · exact absurd h (by simp)
    · have hlen : 8 ≤ s.length := by
        have := congrArg List.length htake
        simp only [List.length_take] at this
        have : min 8 s.length = 8 := by
          rw [this]
          rfl
        omega
      have hr := congrArg Prod.snd (Option.some.inj h)
      simp only at hr
      rw [← hr]
      simp only [List.length_drop]
      omega
  · exact absurd h (by simp)

/-- reQuoteLinks.ReplaceAllString: leftmost-first, non-overlapping. -/
def linkifyRefs : List Char → List Char
  | [] => []
  | c :: rest =>
      match h : tryRef (c :: rest) with
      | some (ds, r) => anchorFor ds ++ linkifyRefs r
      | none => c :: linkifyRefs rest
termination_by l => l.length
decreasing_by
  · exact tryRef_shrink h
  · simp

/-- strings.Split(s, "\n"). -/
def splitLines : List Char → List (List Char)
  | [] => [[]]
  | c :: rest =>
      if c = '\n' then [] :: splitLines rest
      else
        match splitLines rest with
        | [] => [[c]]
        | line :: rls => (c :: line) :: rls

/-- The greentext wrapper opening tag. -/
def gtOpen : List Char := '<' :: 's' :: "pan class=\"greentext\">".data

/-- The escaped single quote marker `&gt;`. -/
def quoteEsc : List Char := ['&', 'g', 't', ';']

/-- The greentext step of processContent on one line. -/
def greentextLine (line : List Char) : List Char :=
  if quoteEsc.isPrefixOf line && !(quoteMarker.isPrefixOf line) then
    gtOpen ++ line ++ "</span>".data
  else line

/-- strings.Join(lines, "<br>"). -/
def joinBr : List (List Char) → List Char
  | [] => []
  | [l] => l
  | l :: rest => l ++ "<br>".data ++ joinBr rest

/-- The per-line stage of processContent: the escaped, markdown-formatted
text is linkified, split on newlines and each line greentext-wrapped. -/
def processLines (content : List Char) : List (List Char) :=
  (splitLines (linkifyRefs (applyMarkdownFormatting (escapeList content)))).map
    greentextLine

/-- handlers/actions.go processContent. -/
def processContent (content : List Char) : List Char :=
  joinBr (processLines content)

/-- processContent on Go strings. -/
def processContentStr (s : String) : String :=
  ⟨processContent s.data⟩

/-! ## Core data model

Rows of the threads, posts, backlinks and reports tables
(database/schema.go plus migration 1), together with the storage
backend's object set.  SQL NULL is `none`; note that HandlePost inserts
the Go string `""` — not NULL — for the image path and hash of a
post without media, so those columns are `some ""` on such rows. -/

structure Thread where
  id : Nat
  boardId : String
  subject : String
  bump : Nat
  replyCount : Int
  imageCount : Int
  locked : Bool
  deriving DecidableEq, Repr

structure Post where
  id : Nat
  boardId : String
  threadId : Nat
  name : String
  content : String
  imagePath : Option String
  thumbPath : Option String
  imageHash : Option String
  deriving DecidableEq, Repr

structure DB where
  threads : List Thread
  posts : List Post
  backlinks : List (Nat × Nat)
  reports : List (Nat × Nat)
  storage : List String
  deriving DecidableEq, Repr

structure BoardCfg where
  id : String
  imageRequired : Bool
  bumpLimit : Int
  maxThreads : Nat
  deriving DecidableEq, Repr

/-- AUTOINCREMENT id allocation: one more than the largest id in use. -/
def nextId (ids : List Nat) : Nat :=
  ids.foldr max 0 + 1

/-! ## HandlePost's transaction (handlers/actions.go lines 182-284) -/

/-- The validated inputs HandlePost carries into the transaction:
`threadId = none` is a new thread, `displayName` is the name after
tripcode splitting, `imagePath`/`imageHash` are `""` when no file was
uploaded (processImage's no-file return). -/
structure PostInput where
  boardId : String
  threadId : Option Nat
  displayName : String
  subject : String
  content : String
  hasImage : Bool
  imagePath : String
  thumbPath : Option String
  imageHash : String
  deriving DecidableEq, Repr

/-- Success or failure of each fallible database call inside the
transaction (`backlinkOk` per backlink target, e.g. a foreign-key
failure on a reference to a nonexistent post). -/
structure TxOutcomes where
  beginOk : Bool
  threadInsertOk : Bool
  postInsertOk : Bool
  counterUpdateOk : Bool
  backlinkOk : Nat → Bool
  commitOk : Bool

inductive PostResponse where
  | redirect (url : String)
  | clientError (status : Nat) (msg : String)
  | dbError (msg : String)
  deriving DecidableEq, Repr

/-- strconv.ParseInt's int64 bound: larger digit strings error out and
the backlink is skipped. -/
def int64Max : Nat := 9223372036854775807

def natOfDigits (ds : List Char) : Nat :=
  ds.foldl (fun n c => n * 10 + (c.toNat - 48)) 0

/-- The digit strings captured by reBacklinks (`>>(\d+)`) over the raw
content, leftmost first, non-overlapping.  A `>>` cannot begin inside a
matched digit run, so continuing the scan one character at a time gives
the same match list as the regex. -/
def refScan : List Char → List (List Char)
  | [] => []
  | c :: rest =>
      match c, rest with
      | '>', '>' :: r =>
          let ds := r.takeWhile (·.isDigit)
          if ds = [] then refScan rest else ds :: refScan rest
      | _, _ => refScan rest

/-- HandlePost's `seen` map: keep only each digit string's first
occurrence. -/
def dedupFirst (seen : List (List Char)) : List (List Char) → List (List Char)
  | [] => []
  | d :: rest =>
      if d ∈ seen then dedupFirst seen rest
      else d :: dedupFirst (d :: seen) rest

/-- INSERT OR IGNORE of one backlink edge, or no change when the
statement fails (which HandlePost only logs). -/
def insertBacklinks (o : TxOutcomes) (src : Nat) :
    List (Nat × Nat) → List (List Char) → List (Nat × Nat)
  | edges, [] => edges
  | edges, ds :: rest =>
      let v := natOfDigits ds
      let edges' :=
        if v ≤ int64Max ∧ 0 < v then
          if o.backlinkOk v then
            if (src, v) ∈ edges then edges else edges ++ [(src, v)]
          else edges
        else edges
      insertBacklinks o src edges' rest

/-- `strings.Contains(haystack, needle)`. -/
def containsSub (needle : List Char) : List Char → Bool
  | [] => needle.isEmpty
  | c :: rest => needle.isPrefixOf (c :: rest) || containsSub needle rest

/-- The no-bump marker check:
`strings.Contains(strings.ToLower(displayName), "sage")`. -/
def sageInName (displayName : String) : Bool :=
  containsSub "sage".data (displayName.data.map Char.toLower)

/-- The thread-metadata UPDATE of the reply branch: reply_count always
increments, image_count increments iff the reply has media, and bump is
set to now only when `bumped`. -/
def updateThreadRow (tid : Nat) (hasImage : Bool) (bumped : Bool) (now : Nat)
    (t : Thread) : Thread :=
  if t.id = tid then
    if bumped then
      { t with replyCount := t.replyCount + 1,
               imageCount := t.imageCount + btoI hasImage, bump := now }
    else
      { t with replyCount := t.replyCount + 1,
               imageCount := t.imageCount + btoI hasImage }
  else t

/-- HandlePost from `tx, err := app.DB().DB.Begin()` to the final
respondJSON: the transaction is a pending state that only replaces the
database at a successful commit; every early return rolls back. -/
def handlePostTx (db : DB) (bc : BoardCfg) (inp : PostInput) (o : TxOutcomes)
    (now : Nat) : PostResponse × DB :=
  if !o.beginOk then (.dbError "Database error.", db)
  else
    match inp.threadId with
    | none =>
        if bc.imageRequired && !inp.hasImage then
          (.clientError 400 "Image required for new threads on this board.", db)
        else if !o.threadInsertOk then
          (.dbError "Database error creating thread.", db)
        else
          let tid := nextId (db.threads.map (·.id))
          let thr : Thread :=
            ⟨tid, inp.boardId, inp.subject, now, 0, btoI inp.hasImage, false⟩
          if !o.postInsertOk then (.dbError "Database error creating post.", db)
          else
            let pid := nextId (db.posts.map (·.id))
            let p : Post :=
              ⟨pid, inp.boardId, tid, inp.displayName,
                processContentStr inp.content, some inp.imagePath,
                inp.thumbPath, some inp.imageHash⟩
            let bl := insertBacklinks o pid db.backlinks
              (dedupFirst [] (refScan inp.content.data))
            if !o.commitOk then (.dbError "Database error saving post.", db)
            else
              (.redirect ("/" ++ inp.boardId ++ "/thread/" ++ toString tid),
                { db with threads := db.threads ++ [thr],
                          posts := db.posts ++ [p], backlinks := bl })
    | some tidReq =>
        match db.threads.find? (fun t => t.id = tidReq) with
        | none => (.clientError 400 "Thread not found.", db)
        | some thr =>
            if thr.locked then (.clientError 403 "Thread is locked.", db)
            else if !o.postInsertOk then
              (.dbError "Database error creating reply.", db)
            else
              let pid := nextId (db.posts.map (·.id))
              let p : Post :=
                ⟨pid, inp.boardId, tidReq, inp.displayName,
                  processContentStr inp.content, some inp.imagePath,
                  inp.thumbPath, some inp.imageHash⟩
              let bumped := !sageInName inp.displayName &&
                thr.replyCount < bc.bumpLimit
              if !o.counterUpdateOk then
                (.dbError "Database error updating thread.", db)
              else
                let bl := insertBacklinks o pid db.backlinks
                  (dedupFirst [] (refScan inp.content.data))
                if !o.commitOk then (.dbError "Database error saving post.", db)
                else
                  (.redirect ("/" ++ inp.boardId ++ "/thread/"
                      ++ toString tidReq ++ "#p" ++ toString pid),
                    { db with
                        threads := db.threads.map
                          (updateThreadRow tidReq inp.hasImage bumped now),
                        posts := db.posts ++ [p], backlinks := bl })

/-! ## DeletePost (database layer)

DeletePost opens a transaction, decides whether the target is the
thread's OP (`ORDER BY id ASC LIMIT 1`, the minimum id), collects the
media paths to check, deletes the rows (an OP deletion removes the
whole thread, cascading to its posts and backlinks through the enabled
foreign keys; a reply deletion removes the one row and decrements the
thread counters), deletes the target's reports, then — still inside the
transaction, before `tx.Commit()` — deletes from storage every
collected file whose content hash no longer appears on any post. -/

inductive DelEvent where
  | storageDelete (path : String)
  | commit
  deriving DecidableEq, Repr

/-- The Go `filesToCheck` map keyed by path: insert or overwrite. -/
def fileMapInsert (m : List (String × String)) (path hash : String) :
    List (String × String) :=
  if m.any (fun e => e.1 = path) then
    m.map (fun e => if e.1 = path then (path, hash) else e)
  else m ++ [(path, hash)]

/-- The OP branch's collection query:
`image_path IS NOT NULL AND image_path != ''` over the thread, adding
the image path and (when present) the thumbnail path, each mapped to
the row's hash string (NULL scanning to `""`). -/
def collectThreadFiles (posts : List Post) (tid : Nat) :
    List (String × String) :=
  (posts.filter (fun p =>
      p.threadId = tid && p.imagePath.isSome && p.imagePath ≠ some "")).foldl
    (fun m p =>
      let m1 := match p.imagePath with
        | some path => fileMapInsert m path (p.imageHash.getD "")
        | none => m
      match p.thumbPath with
      | some t => fileMapInsert m1 t (p.imageHash.getD "")
      | none => m1)
    []

/-- The reply branch's collection: the target's own image and thumbnail
paths when `imagePath.Valid && imageHash.Valid`. -/
def collectReplyFiles (p : Post) : List (String × String) :=
  if p.imagePath.isSome && p.imageHash.isSome then
    let m := fileMapInsert [] (p.imagePath.getD "") (p.imageHash.getD "")
    match p.thumbPath with
    | some t => fileMapInsert m t (p.imageHash.getD "")
    | none => m
  else []

/-- database DeletePost: `none` when the post does not exist, otherwise
the new state, the ordered effect trace (storage deletions, then the
commit), and the isOp flag. -/
def deletePost (db : DB) (postID : Nat) :
    Option (DB × List DelEvent × Bool) :=
  match db.posts.find? (fun p => p.id = postID) with
  | none => none
  | some p =>
      let tid := p.threadId
      let isOp :=
        ((db.posts.filter (fun q => q.threadId = tid)).map (·.id)).minimum?
          = some postID
      let files := if isOp then collectThreadFiles db.posts tid
        else collectReplyFiles p
      let posts' := if isOp then db.posts.filter (fun q => q.threadId ≠ tid)
        else db.posts.filter (fun q => q.id ≠ postID)
      let threads' := if isOp then db.threads.filter (fun t => t.id ≠ tid)
        else db.threads.map (fun t =>
          if t.id = tid then
            { t with replyCount := t.replyCount - 1,
                     imageCount := if p.imagePath.isSome then t.imageCount - 1
                       else t.imageCount }
          else t)
      let deletedIds := if isOp then
          (db.posts.filter (fun q => q.threadId = tid)).map (·.id)
        else [postID]
      let backlinks' := db.backlinks.filter (fun e =>
        !(deletedIds.contains e.1 || deletedIds.contains e.2))
      let reports' := db.reports.filter (fun r => r.2 ≠ postID)
      let delPaths := (files.filter (fun f =>
        (posts'.filter (fun q => q.imageHash = some f.2)).length = 0)).map (·.1)
      let storage' := db.storage.filter (fun s => !delPaths.contains s)
      some (⟨threads', posts', backlinks', reports', storage'⟩,
        delPaths.map DelEvent.storageDelete ++ [DelEvent.commit], isOp)

/-! ## processImage (handlers/actions.go lines 372-511)

The external imaging library, the content sniffer and SHA-256 are
abstracted into a `Codec`; everything the pipeline itself decides —
the size and type gates, the hash dedup query, the filenames, which
bytes are saved under which content type — is spelled out.  The
crucial codepath: the main asset is saved as the raw uploaded bytes
under the sniffed content type; only the thumbnail comes from the
decoded (EXIF-corrected) image, fitted and JPEG-encoded. -/

structure Codec (Img : Type) where
  hashHex : List Nat → String
  sniff : List Nat → String
  decodeOriented : List Nat → Option Img
  fitThumb : Img → Img
  jpegEncode85 : Img → List Nat
  videoThumb : List Nat → Option (List Nat)

inductive SaveEvent where
  | saveMain (name : String) (data : List Nat) (contentType : String)
  | saveThumb (name : String) (data : List Nat)
  deriving DecidableEq, Repr

inductive ImgOutcome where
  | noFile
  | rejected (msg : String)
  | accepted (imagePath : String) (thumbPath : Option String) (hash : String)
  deriving DecidableEq, Repr

def allowedImageTypes : List String :=
  ["image/jpeg", "image/png", "image/gif", "image/webp"]

def allowedVideoTypes : List String :=
  ["video/webm", "video/mp4"]

/-- config.MaxFileSize. -/
def maxFileSize : Nat := 15 * 1024 * 1024

/-- The output extension switch: the sniffed type's own extension —
no format is converted. -/
def extFor (ct : String) : String :=
  if ct = "image/jpeg" then ".jpeg"
  else if ct = "image/png" then ".png"
  else if ct = "image/gif" then ".gif"
  else if ct = "image/webp" then ".webp"
  else if ct = "video/webm" then ".webm"
  else ".mp4"

/-- The save half of processImage, reached when no post already carries
the hash: thumbnail bytes from ffmpeg (video) or decode-fit-encode
(image), then SaveFile of the raw main bytes, then SaveFile of the
thumbnail when one was produced. -/
def processImageSave {Img : Type} (codec : Codec Img) (data : List Nat)
    (nano : Nat) (ct h : String) : ImgOutcome × List SaveEvent :=
  let mainName := toString nano ++ "_" ++ (h.take 12) ++ extFor ct
  let thumbName := toString nano ++ "_" ++ (h.take 12) ++ "_thumb.jpeg"
  let thumbData : Option (List Nat) :=
    if allowedVideoTypes.contains ct then codec.videoThumb data
    else
      match codec.decodeOriented data with
      | some img => some (codec.jpegEncode85 (codec.fitThumb img))
      | none => none
  let evMain := SaveEvent.saveMain mainName data ct
  match thumbData with
  | some td =>
      if td.length > 0 then
        (.accepted ("/uploads/" ++ mainName) (some ("/uploads/" ++ thumbName)) h,
          [evMain, SaveEvent.saveThumb thumbName td])
      else (.accepted ("/uploads/" ++ mainName) none h, [evMain])
  | none => (.accepted ("/uploads/" ++ mainName) none h, [evMain])

/-- handlers/actions.go processImage for a present upload: size gate,
magic-byte gate, SHA-256 dedup against the posts table, then save. -/
def processImage {Img : Type} (codec : Codec Img) (db : DB) (data : List Nat)
    (nano : Nat) : ImgOutcome × List SaveEvent :=
  if data.length > maxFileSize then
    (.rejected "file is larger than the 15MB limit", [])
  else if data.length = 0 then (.rejected "file is empty", [])
  else
    let ct := codec.sniff data
    if !(allowedImageTypes.contains ct || allowedVideoTypes.contains ct) then
      (.rejected ("unsupported file type: " ++ ct), [])
    else
      let h := codec.hashHex data
      match db.posts.find? (fun p => p.imageHash = some h) with
      | some q =>
          if q.imagePath.isSome then
            (.accepted (q.imagePath.getD "") q.thumbPath h, [])
          else processImageSave codec data nano ct h
      | none => processImageSave codec data nano ct h

/-- An upload followed by inserting a post that references the returned
path, thumbnail and hash (the dedup scenario's repeated step). -/
def uploadAndPost {Img : Type} (codec : Codec Img) (db : DB) (data : List Nat)
    (nano : Nat) : DB × List SaveEvent :=
  match processImage codec db data nano with
  | (.accepted path thumb h, evs) =>
      ({ db with posts := db.posts ++
          [⟨nextId (db.posts.map (·.id)), "b", 1, "", "", some path, thumb,
            some h⟩] }, evs)
  | (_, evs) => (db, evs)

/-- The main-asset saves in a trace. -/
def mainSaves (evs : List SaveEvent) : List SaveEvent :=
  evs.filter (fun e => match e with
    | .saveMain _ _ _ => true
    | _ => false)

/-! ## C1: transaction rollback in HandlePost -/

/-- C1 (counterexample): a reply whose content references the
nonexistent post 999 while the backlink INSERT fails (e.g. by the
enforced foreign key).  HandlePost merely logs the failure: the commit
still happens, the reply row persists, the counters update and the
client receives the redirect — not the rollback and database-error
response the claim requires for a backlink-insert failure. -/
theorem handlePost_backlink_failure_commits :
    (handlePostTx ⟨[⟨1, "b", "s", 0, 0, 0, false⟩],
        [⟨1, "b", 1, "anon", "op", some "", none, some ""⟩], [], [], []⟩
      ⟨"b", false, 500, 100⟩
      ⟨"b", some 1, "anon", "", ">>999 hi", false, "", none, ""⟩
      ⟨true, true, true, true, fun _ => false, true⟩ 5).1 =
      PostResponse.redirect "/b/thread/1#p2" ∧
    (handlePostTx ⟨[⟨1, "b", "s", 0, 0, 0, false⟩],
        [⟨1, "b", 1, "anon", "op", some "", none, some ""⟩], [], [], []⟩
      ⟨"b", false, 500, 100⟩
      ⟨"b", some 1, "anon", "", ">>999 hi", false, "", none, ""⟩
      ⟨true, true, true, true, fun _ => false, true⟩ 5).2.threads =
      [⟨1, "b", "s", 5, 1, 0, false⟩] ∧
    (handlePostTx ⟨[⟨1, "b", "s", 0, 0, 0, false⟩],
        [⟨1, "b", 1, "anon", "op", some "", none, some ""⟩], [], [], []⟩
      ⟨"b", false, 500, 100⟩
      ⟨"b", some 1, "anon", "", ">>999 hi", false, "", none, ""⟩
      ⟨true, true, true, true, fun _ => false, true⟩ 5).2.posts.length = 2 :=
  ⟨rfl, rfl, rfl⟩

/-- C1 (amended): once the transaction is open, a failure of the thread
insert, the post insert, the counter update or the commit rolls the
whole transaction back — no thread row, post row, counter change or
backlink edge persists — and the client receives a generic
database-error response.  (A backlink-insert failure, by contrast, is
only logged and the transaction still commits.) -/
theorem handlePost_tx_rollback (db : DB) (bc : BoardCfg) (inp : PostInput)
    (o : TxOutcomes) (now : Nat) :
    (o.beginOk = false →
      handlePostTx db bc inp o now = (.dbError "Database error.", db)) ∧
    (o.beginOk = true → inp.threadId = none →
      (bc.imageRequired && !inp.hasImage) = false →
      (o.threadInsertOk = false ∨ o.postInsertOk = false ∨ o.commitOk = false) →
      (handlePostTx db bc inp o now).2 = db ∧
        ∃ m, (handlePostTx db bc inp o now).1 = .dbError m) ∧
    (∀ tid thr, o.beginOk = true → inp.threadId = some tid →
      db.threads.find? (fun t => t.id = tid) = some thr → thr.locked = false →
      (o.postInsertOk = false ∨ o.counterUpdateOk = false ∨ o.commitOk = false) →
      (handlePostTx db bc inp o now).2 = db ∧
        ∃ m, (handlePostTx db bc inp o now).1 = .dbError m) := by
  refine ⟨?_, ?_, ?_⟩
  · intro hb
    simp [handlePostTx, hb]
  · intro hb ht himg hfail
    cases h1 : o.threadInsertOk with
    | false => simp [handlePostTx, hb, ht, himg, h1]
    | true =>
      cases h2 : o.postInsertOk with
      | false => simp [handlePostTx, hb, ht, himg, h1, h2]
      | true =>
        cases h3 : o.commitOk with
        | false => simp [handlePostTx, hb, ht, himg, h1, h2, h3]
        | true =>
          rcases hfail with h | h | h
          · rw [h1] at h
            exact absurd h (by simp)
          · rw [h2] at h
            exact absurd h (by simp)
          · rw [h3] at h
            exact absurd h (by simp)
  · intro tid thr hb ht hfind hlock hfail
    cases h2 : o.postInsertOk with
    | false => simp [handlePostTx, hb, ht, hfind, hlock, h2]
    | true =>
      cases h4 : o.counterUpdateOk with
      | false => simp [handlePostTx, hb, ht, hfind, hlock, h2, h4]
      | true =>
        cases h3 : o.commitOk with
        | false => simp [handlePostTx, hb, ht, hfind, hlock, h2, h4, h3]
        | true =>
          rcases hfail with h | h | h
          · rw [h2] at h
            exact absurd h (by simp)
          · rw [h4] at h
            exact absurd h (by simp)
          · rw [h3] at h
            exact absurd h (by simp)

/-- Witness for `handlePost_tx_rollback`: a commit failure on a new
thread rolls everything back with a database error. -/
theorem handlePost_tx_rollback_witness :
    (handlePostTx ⟨[], [], [], [], []⟩ ⟨"b", false, 500, 100⟩
      ⟨"b", none, "anon", "s", "hi", false, "", none, ""⟩
      ⟨true, true, true, true, fun _ => true, false⟩ 3).2 =
      (⟨[], [], [], [], []⟩ : DB) ∧
    ∃ m, (handlePostTx ⟨[], [], [], [], []⟩ ⟨"b", false, 500, 100⟩
      ⟨"b", none, "anon", "s", "hi", false, "", none, ""⟩
      ⟨true, true, true, true, fun _ => true, false⟩ 3).1 = .dbError m :=
  (handlePost_tx_rollback ⟨[], [], [], [], []⟩ ⟨"b", false, 500, 100⟩
      ⟨"b", none, "anon", "s", "hi", false, "", none, ""⟩
      ⟨true, true, true, true, fun _ => true, false⟩ 3).2.1
    rfl rfl rfl (Or.inr (Or.inr rfl))

/-! ## C6: the bump decision -/

/-- C6 (counterexample): a sage-free reply into a thread whose reply
count read inside the transaction equals the board's bump limit (2 = 2,
so the count has not *exceeded* the limit).  The claim then requires
the bump timestamp to update to now = 7; the code's strict
`replyCount < BumpLimit` comparison leaves the bump at 0 while still
accepting the reply and incrementing the counter. -/
theorem reply_bump_at_limit_counterexample :
    sageInName "anon" = false ∧
    ¬ ((2 : Int) > 2) ∧
    (handlePostTx ⟨[⟨1, "b", "s", 0, 2, 0, false⟩],
        [⟨1, "b", 1, "anon", "op", some "", none, some ""⟩], [], [], []⟩
      ⟨"b", false, 2, 100⟩
      ⟨"b", some 1, "anon", "", "hi", false, "", none, ""⟩
      ⟨true, true, true, true, fun _ => true, true⟩ 7).1 =
      PostResponse.redirect "/b/thread/1#p2" ∧
    (handlePostTx ⟨[⟨1, "b", "s", 0, 2, 0, false⟩],
        [⟨1, "b", 1, "anon", "op", some "", none, some ""⟩], [], [], []⟩
      ⟨"b", false, 2, 100⟩
      ⟨"b", some 1, "anon", "", "hi", false, "", none, ""⟩
      ⟨true, true, true, true, fun _ => true, true⟩ 7).2.threads =
      [⟨1, "b", "s", 0, 3, 0, false⟩] :=
  ⟨rfl, by omega, rfl, rfl⟩

/-- C6 (amended): a reply successfully inserted into an unlocked thread
always increments reply_count by 1 and image_count by 1 iff it carries
media, and the bump timestamp is set to now exactly when the author's
display name does not contain the no-bump marker and the reply count
read inside the transaction is strictly below the board's bump limit;
otherwise the bump timestamp keeps its old value. -/
theorem reply_bump_iff (db : DB) (bc : BoardCfg) (inp : PostInput)
    (o : TxOutcomes) (now : Nat) (tid : Nat) (thr : Thread)
    (hb : o.beginOk = true) (ht : inp.threadId = some tid)
    (hfind : db.threads.find? (fun t => t.id = tid) = some thr)
    (hlock : thr.locked = false) (h2 : o.postInsertOk = true)
    (h4 : o.counterUpdateOk = true) (h3 : o.commitOk = true) :
    (∃ u, (handlePostTx db bc inp o now).1 = .redirect u) ∧
    ∀ t ∈ db.threads, t.id = tid →
      ∃ t' ∈ (handlePostTx db bc inp o now).2.threads,
        t'.id = tid ∧
        t'.replyCount = t.replyCount + 1 ∧
        t'.imageCount = t.imageCount + btoI inp.hasImage ∧
        t'.bump = (if sageInName inp.displayName = false ∧
            thr.replyCount < bc.bumpLimit then now else t.bump) := by
  have hres : handlePostTx db bc inp o now =
      (.redirect ("/" ++ inp.boardId ++ "/thread/" ++ toString tid ++ "#p"
          ++ toString (nextId (db.posts.map (·.id)))),
        { db with
            threads := db.threads.map (updateThreadRow tid inp.hasImage
              (!sageInName inp.displayName && thr.replyCount < bc.bumpLimit) now),
            posts := db.posts ++
              [⟨nextId (db.posts.map (·.id)), inp.boardId, tid, inp.displayName,
                processContentStr inp.content, some inp.imagePath, inp.thumbPath,
                some inp.imageHash⟩],
            backlinks := insertBacklinks o (nextId (db.posts.map (·.id)))
              db.backlinks (dedupFirst [] (refScan inp.content.data)) }) := by
    simp [handlePostTx, hb, ht, hfind, hlock, h2, h4, h3]
  refine ⟨⟨_, by rw [hres]⟩, ?_⟩
  intro t hmem hid
  rw [hres]
  refine ⟨updateThreadRow tid inp.hasImage
      (!sageInName inp.displayName && thr.replyCount < bc.bumpLimit) now t,
    List.mem_map_of_mem _ hmem, ?_⟩
  unfold updateThreadRow
  rw [if_pos hid]
  by_cases hsage : sageInName inp.displayName = false
  · by_cases hlt : thr.replyCount < bc.bumpLimit
    · simp [hsage, hlt, hid]
    · simp [hsage, hlt, hid]
  · have hsage' : sageInName inp.displayName = true := by
      revert hsage
      cases sageInName inp.displayName <;> simp
    simp [hsage', hid]

/-- Witness for `reply_bump_iff`: a sage-free reply under the bump
limit bumps the thread to now = 9. -/
theorem reply_bump_iff_witness :
    ∃ t' ∈ (handlePostTx ⟨[⟨1, "b", "s", 0, 0, 0, false⟩],
        [⟨1, "b", 1, "anon", "op", some "", none, some ""⟩], [], [], []⟩
      ⟨"b", false, 500, 100⟩
      ⟨"b", some 1, "anon", "", "hi", false, "", none, ""⟩
      ⟨true, true, true, true, fun _ => true, true⟩ 9).2.threads,
      t'.id = 1 ∧
      t'.replyCount = (0 : Int) + 1 ∧
      t'.imageCount = (0 : Int) + btoI false ∧
      t'.bump = (if sageInName "anon" = false ∧ (0 : Int) < 500 then 9 else 0) := by
  have h := reply_bump_iff ⟨[⟨1, "b", "s", 0, 0, 0, false⟩],
      [⟨1, "b", 1, "anon", "op", some "", none, some ""⟩], [], [], []⟩
    ⟨"b", false, 500, 100⟩
    ⟨"b", some 1, "anon", "", "hi", false, "", none, ""⟩
    ⟨true, true, true, true, fun _ => true, true⟩ 9 1
    ⟨1, "b", "s", 0, 0, 0, false⟩ rfl rfl rfl rfl rfl rfl rfl
  exact h.2 ⟨1, "b", "s", 0, 0, 0, false⟩ (by simp) rfl

/-! ## C2: deletion cascade and counters -/

/-- C2 (code bug): deleting a media-less reply.  HandlePost stores the
empty string — not NULL — in image_path for posts without media, and
DeletePost's reply branch decrements image_count whenever the scanned
image_path is non-NULL (`imagePath.Valid`), so deleting the media-less
reply (post 2) wrongly drops the thread's image_count from 1 to 0 even
though the remaining posts still carry one media file.  (The cascade
half behaves as claimed: the reply row alone is deleted, the thread and
the OP remain, reply_count drops by exactly 1.) -/
theorem deletePost_imageCount_bug :
    deletePost ⟨[⟨1, "b", "s", 0, 1, 1, false⟩],
        [⟨1, "b", 1, "a", "op", some "/uploads/x.png",
          some "/uploads/x_thumb.jpeg", some "H"⟩,
         ⟨2, "b", 1, "a", "re", some "", none, some ""⟩], [], [],
        ["/uploads/x.png", "/uploads/x_thumb.jpeg"]⟩ 2 =
      some (⟨[⟨1, "b", "s", 0, 0, 0, false⟩],
        [⟨1, "b", 1, "a", "op", some "/uploads/x.png",
          some "/uploads/x_thumb.jpeg", some "H"⟩], [], [],
        ["/uploads/x.png", "/uploads/x_thumb.jpeg"]⟩,
        [DelEvent.storageDelete "", DelEvent.commit], false) ∧
    (([⟨1, "b", 1, "a", "op", some "/uploads/x.png",
        some "/uploads/x_thumb.jpeg", some "H"⟩] : List Post).filter
      (fun p => p.imagePath.isSome && p.imagePath ≠ some "")).length = 1 := by
  constructor
  · rfl
  · rfl

/-! ## C8: reference-counted media cleanup -/

/-- The files DeletePost collects for cleanup (the same collection its
transaction performs). -/
def deletePostCollected (db : DB) (postID : Nat) : List (String × String) :=
  match db.posts.find? (fun p => p.id = postID) with
  | none => []
  | some p =>
      if ((db.posts.filter (fun q => q.threadId = p.threadId)).map (·.id)).minimum?
          = some postID then
        collectThreadFiles db.posts p.threadId
      else collectReplyFiles p

/-- Entries of a path-keyed file map determine each other by key. -/
def keyInjective (m : List (String × String)) : Prop :=
  ∀ a ∈ m, ∀ b ∈ m, a.1 = b.1 → a = b

theorem keyInjective_nil : keyInjective [] := by
  intro a ha
  simp at ha

theorem keyInjective_fileMapInsert {m : List (String × String)}
    (h : keyInjective m) (path hash : String) :
    keyInjective (fileMapInsert m path hash) := by
  unfold fileMapInsert
  by_cases hany : m.any (fun e => e.1 = path)
  · simp only [hany, if_true]
    intro a ha b hb hab
    simp only [List.mem_map] at ha hb
    obtain ⟨a0, ha0, ha0e⟩ := ha
    obtain ⟨b0, hb0, hb0e⟩ := hb
    by_cases hak : a0.1 = path <;> by_cases hbk : b0.1 = path
    · rw [← ha0e, ← hb0e]
      simp [hak, hbk]
    · exfalso
      rw [if_pos hak] at ha0e
      rw [if_neg hbk] at hb0e
      rw [← ha0e, ← hb0e] at hab
      exact hbk (by simpa using hab.symm)
    · exfalso
      rw [if_neg hak] at ha0e
      rw [if_pos hbk] at hb0e
      rw [← ha0e, ← hb0e] at hab
      exact hak (by simpa using hab)
    · rw [if_neg hak] at ha0e
      rw [if_neg hbk] at hb0e
      rw [← ha0e, ← hb0e] at hab ⊢
      exact h a0 ha0 b0 hb0 hab
  · rw [if_neg hany]
    intro a ha b hb hab
    simp only [List.mem_append, List.mem_singleton] at ha hb
    rcases ha with ha | ha <;> rcases hb with hb | hb
    · exact h a ha b hb hab
    · exfalso
      apply hany
      rw [List.any_eq_true]
      exact ⟨a, ha, by simp [hab, hb]⟩
    · exfalso
      apply hany
      rw [List.any_eq_true]
      exact ⟨b, hb, by simp [← hab, ha]⟩
    · rw [ha, hb]

theorem foldl_preserve {α β : Type} (P : β → Prop) (f : β → α → β)
    (hstep : ∀ b a, P b → P (f b a)) :
    ∀ (l : List α) (b : β), P b → P (l.foldl f b) := by
  intro l
  induction l with
  | nil => exact fun b hb => hb
  | cons x xs ih => exact fun b hb => ih (f b x) (hstep b x hb)

theorem keyInjective_collectThreadFiles (posts : List Post) (tid : Nat) :
    keyInjective (collectThreadFiles posts tid) := by
  unfold collectThreadFiles
  refine foldl_preserve keyInjective _ ?_ _ [] keyInjective_nil
  intro m p hm
  rcases p.imagePath with _ | path <;> rcases hthumb : p.thumbPath with _ | t <;>
    simp only [hthumb] <;>
    first
      | exact hm
      | exact keyInjective_fileMapInsert hm _ _
      | exact keyInjective_fileMapInsert (keyInjective_fileMapInsert hm _ _) _ _

theorem keyInjective_collectReplyFiles (p : Post) :
    keyInjective (collectReplyFiles p) := by
  unfold collectReplyFiles
  split
  · rcases p.thumbPath with _ | t
    · exact keyInjective_fileMapInsert keyInjective_nil _ _
    · exact keyInjective_fileMapInsert
        (keyInjective_fileMapInsert keyInjective_nil _ _) _ _
  · exact keyInjective_nil

theorem keyInjective_deletePostCollected (db : DB) (postID : Nat) :
    keyInjective (deletePostCollected db postID) := by
  unfold deletePostCollected
  rcases hfind : db.posts.find? (fun p => p.id = postID) with _ | p <;>
    simp only [hfind]
  · exact keyInjective_nil
  · split
    · exact keyInjective_collectThreadFiles _ _
    · exact keyInjective_collectReplyFiles _

/-- C8 (counterexample): deleting the OP of a single-post thread whose
image is referenced nowhere else.  Both stored files are physically
deleted, and the storage deletions appear in the effect trace *before*
the transaction's commit — DeletePost calls storage.DeleteFile inside
the open transaction and only then `tx.Commit()`, contradicting the
claim that physical deletion happens only after the commit. -/
theorem deletePost_deletes_before_commit :
    deletePost ⟨[⟨1, "b", "s", 0, 0, 1, false⟩],
        [⟨1, "b", 1, "a", "op", some "/uploads/x.png",
          some "/uploads/x_thumb.jpeg", some "H"⟩], [], [],
        ["/uploads/x.png", "/uploads/x_thumb.jpeg"]⟩ 1 =
      some (⟨[], [], [], [], []⟩,
        [DelEvent.storageDelete "/uploads/x.png",
         DelEvent.storageDelete "/uploads/x_thumb.jpeg", DelEvent.commit],
        true) ∧
    ∃ pre post,
      ([DelEvent.storageDelete "/uploads/x.png",
        DelEvent.storageDelete "/uploads/x_thumb.jpeg", DelEvent.commit] :
          List DelEvent) = pre ++ DelEvent.commit :: post ∧
      DelEvent.storageDelete "/uploads/x.png" ∈ pre :=
  ⟨rfl,
    [DelEvent.storageDelete "/uploads/x.png",
     DelEvent.storageDelete "/uploads/x_thumb.jpeg"], [], rfl, by simp⟩

/-- C8 (amended): DeletePost physically deletes exactly the collected
media files whose content hash no longer appears on any remaining post
— a file still cited by a remaining post is never deleted and stays in
storage — and these deletions happen inside the transaction, before
the single trailing commit in the effect trace (not after the commit,
as the spec claims). -/
theorem deletePost_refcount_safe (db : DB) (postID : Nat) (db' : DB)
    (tr : List DelEvent) (op : Bool)
    (h : deletePost db postID = some (db', tr, op)) :
    tr = ((deletePostCollected db postID).filter (fun pr =>
        (db'.posts.filter (fun q => q.imageHash = some pr.2)).length = 0)).map
      (fun pr => DelEvent.storageDelete pr.1) ++ [DelEvent.commit] ∧
    ∀ pr ∈ deletePostCollected db postID,
      0 < (db'.posts.filter (fun q => q.imageHash = some pr.2)).length →
      DelEvent.storageDelete pr.1 ∉ tr ∧
      (pr.1 ∈ db'.storage ↔ pr.1 ∈ db.storage) := by
  have hinj := keyInjective_deletePostCollected db postID
  unfold deletePost at h
  unfold deletePostCollected at hinj ⊢
  rcases hfind : db.posts.find? (fun p => p.id = postID) with _ | p
  · rw [hfind] at h
    exact absurd h (by simp)
  · rw [hfind] at h hinj ⊢
    simp only [Option.some.injEq, Prod.mk.injEq] at h
    obtain ⟨hdb, htr, hop⟩ := h
    subst hdb
    subst htr
    constructor
    · rw [List.map_map]
      rfl
    · intro pr hpr hcount
      dsimp only at hcount
      have hnot : pr.1 ∉ ((if ((db.posts.filter
          (fun q => q.threadId = p.threadId)).map (·.id)).minimum? = some postID
            then collectThreadFiles db.posts p.threadId
            else collectReplyFiles p).filter (fun f =>
          ((if ((db.posts.filter (fun q => q.threadId = p.threadId)).map
              (·.id)).minimum? = some postID then
              db.posts.filter (fun q => q.threadId ≠ p.threadId)
            else db.posts.filter (fun q => q.id ≠ postID)).filter
            (fun q => q.imageHash = some f.2)).length = 0)).map (·.1) := by
        intro hmem
        rw [List.mem_map] at hmem
        obtain ⟨pr', hpr', hkey⟩ := hmem
        rw [List.mem_filter] at hpr'
        have heq := hinj pr' hpr'.1 pr hpr hkey
        rw [heq] at hpr'
        have hz := hpr'.2
        simp only [decide_eq_true_eq] at hz
        omega
      refine ⟨?_, ?_⟩
      · intro hmemtr
        rcases List.mem_append.mp hmemtr with hm | hm
        · rw [List.mem_map] at hm
          obtain ⟨s, hs, hkey⟩ := hm
          have hseq : s = pr.1 := DelEvent.storageDelete.inj hkey
          rw [hseq] at hs
          exact hnot hs
        · simp at hm
      · constructor
        · intro hmem
          have := List.mem_filter.mp hmem
          exact this.1
        · intro hmem
          rw [List.mem_filter]
          refine ⟨hmem, ?_⟩
          simpa using hnot

/-- Witness for `deletePost_refcount_safe`: the single-OP thread whose
two stored files are both reclaimed, ahead of the trailing commit. -/
theorem deletePost_refcount_safe_witness :
    ([DelEvent.storageDelete "/uploads/x.png",
      DelEvent.storageDelete "/uploads/x_thumb.jpeg", DelEvent.commit] :
        List DelEvent) =
      ((deletePostCollected ⟨[⟨1, "b", "s", 0, 0, 1, false⟩],
          [⟨1, "b", 1, "a", "op", some "/uploads/x.png",
            some "/uploads/x_thumb.jpeg", some "H"⟩], [], [],
          ["/uploads/x.png", "/uploads/x_thumb.jpeg"]⟩ 1).filter (fun pr =>
        ((⟨[], [], [], [], []⟩ : DB).posts.filter
          (fun q => q.imageHash = some pr.2)).length = 0)).map
        (fun pr => DelEvent.storageDelete pr.1) ++ [DelEvent.commit] :=
  (deletePost_refcount_safe ⟨[⟨1, "b", "s", 0, 0, 1, false⟩],
      [⟨1, "b", 1, "a", "op", some "/uploads/x.png",
        some "/uploads/x_thumb.jpeg", some "H"⟩], [], [],
      ["/uploads/x.png", "/uploads/x_thumb.jpeg"]⟩ 1 ⟨[], [], [], [], []⟩
    [DelEvent.storageDelete "/uploads/x.png",
     DelEvent.storageDelete "/uploads/x_thumb.jpeg", DelEvent.commit]
    true rfl).1

/-! ## C3: counter consistency -/

/-- A sequence of successful reply insertions and successful non-OP
reply deletions against thread `tid`, counting each kind. -/
inductive ReplyTrace (bc : BoardCfg) (tid : Nat) :
    DB → DB → Nat → Nat → Prop
  | refl (db : DB) : ReplyTrace bc tid db db 0 0
  | insert {db0 db1 : DB} {n m : Nat} (inp : PostInput) (o : TxOutcomes)
      (now : Nat) (u : String) :
      ReplyTrace bc tid db0 db1 n m →
      inp.threadId = some tid →
      (handlePostTx db1 bc inp o now).1 = .redirect u →
      ReplyTrace bc tid db0 (handlePostTx db1 bc inp o now).2 (n + 1) m
  | delete {db0 db1 : DB} {n m : Nat} (pid : Nat) (p : Post) (db2 : DB)
      (tr : List DelEvent) :
      ReplyTrace bc tid db0 db1 n m →
      db1.posts.find? (fun q => q.id = pid) = some p →
      p.threadId = tid →
      deletePost db1 pid = some (db2, tr, false) →
      ReplyTrace bc tid db0 db2 n (m + 1)

/-- A reply accepted with a redirect updates the thread table exactly by
`updateThreadRow` for some bump decision. -/
theorem handlePostTx_redirect_threads (db : DB) (bc : BoardCfg)
    (inp : PostInput) (o : TxOutcomes) (now : Nat) (tid : Nat) (u : String)
    (ht : inp.threadId = some tid)
    (hred : (handlePostTx db bc inp o now).1 = .redirect u) :
    ∃ bumped, (handlePostTx db bc inp o now).2.threads =
      db.threads.map (updateThreadRow tid inp.hasImage bumped now) := by
  cases hb : o.beginOk with
  | false =>
      rw [show handlePostTx db bc inp o now = (.dbError "Database error.", db)
        from by simp [handlePostTx, hb]] at hred
      exact absurd hred (by simp)
  | true =>
      simp only [handlePostTx, hb, ht, Bool.not_true, Bool.false_eq_true,
        if_false] at hred ⊢
      rcases hfind : db.threads.find? (fun t => t.id = tid) with _ | thr <;>
        simp only [hfind] at hred ⊢
      · exact absurd hred (by simp)
      · cases hl : thr.locked with
        | true => simp [hl] at hred
        | false =>
            cases h2 : o.postInsertOk with
            | false => simp [hl, h2] at hred
            | true =>
                cases h4 : o.counterUpdateOk with
                | false => simp [hl, h2, h4] at hred
                | true =>
                    cases h3 : o.commitOk with
                    | false => simp [hl, h2, h4, h3] at hred
                    | true =>
                        simp only [hl, h2, h4, h3, Bool.not_true,
                          Bool.false_eq_true, if_false, Bool.not_false]
                        exact ⟨_, rfl⟩

/-- A successful non-OP deletion updates the thread table exactly by the
reply-branch decrement of the deleted post's thread. -/
theorem deletePost_reply_threads (db : DB) (pid : Nat) (p : Post) (db2 : DB)
    (tr : List DelEvent)
    (hfind : db.posts.find? (fun q => q.id = pid) = some p)
    (hdel : deletePost db pid = some (db2, tr, false)) :
    db2.threads = db.threads.map (fun t =>
      if t.id = p.threadId then
        { t with replyCount := t.replyCount - 1,
                 imageCount := if p.imagePath.isSome then t.imageCount - 1
                   else t.imageCount }
      else t) := by
  unfold deletePost at hdel
  rw [hfind] at hdel
  simp only [Option.some.injEq, Prod.mk.injEq] at hdel
  obtain ⟨hdb2, htr2, hisop⟩ := hdel
  have hnotop : ¬ (((db.posts.filter (fun q => q.threadId = p.threadId)).map
      (·.id)).minimum? = some pid) := by
    simpa using hisop
  rw [← hdb2]
  dsimp only
  rw [if_neg hnotop]

/-- C3 (amended): along any sequence of N successful reply insertions
and M successful non-OP reply deletions against a thread, its
reply_count ends at its starting value plus N − M (so starting from a
fresh thread it equals N − M); reply insertion also increments
image_count by 1 iff the reply carries media, but deletion decrements
image_count whenever the stored image_path is non-NULL — the
empty-string path of a media-less post included — rather than iff the
post had media. -/
theorem counter_consistency (bc : BoardCfg) (tid : Nat) (db0 db1 : DB)
    (n m : Nat) (h : ReplyTrace bc tid db0 db1 n m) :
    ∀ t ∈ db0.threads, t.id = tid →
      ∃ t' ∈ db1.threads, t'.id = tid ∧
        t'.replyCount = t.replyCount + (n : Int) - (m : Int) := by
  induction h with
  | refl =>
      intro t ht hid
      exact ⟨t, ht, hid, by simp⟩
  | insert inp o now u htr hthread hred ih =>
      intro t ht hid
      obtain ⟨t', ht', hid', hcount⟩ := ih t ht hid
      obtain ⟨bumped, hthreads⟩ :=
        handlePostTx_redirect_threads _ _ _ _ _ _ _ hthread hred
      rw [hthreads]
      refine ⟨updateThreadRow tid inp.hasImage bumped now t',
        List.mem_map_of_mem _ ht', ?_, ?_⟩
      · unfold updateThreadRow
        rw [if_pos hid']
        cases bumped <;> simp [hid']
      · unfold updateThreadRow
        rw [if_pos hid']
        cases bumped <;> simp <;> rw [hcount] <;> push_cast <;> ring
  | delete pid p db2 tr htr hfindp hptid hdel ih =>
      intro t ht hid
      obtain ⟨t', ht', hid', hcount⟩ := ih t ht hid
      rw [deletePost_reply_threads _ _ _ _ _ hfindp hdel]
      refine ⟨_, List.mem_map_of_mem _ ht', ?_, ?_⟩
      · rw [hptid, if_pos hid']
        cases hp : p.imagePath.isSome <;> simp [hp, hid']
      · rw [hptid, if_pos hid']
        cases hp : p.imagePath.isSome <;> simp [hp] <;> rw [hcount] <;>
          push_cast <;> ring

/-- Witness for `counter_consistency`: the empty trace keeps
reply_count at its starting value. -/
theorem counter_consistency_witness :
    ∃ t' ∈ [(⟨1, "b", "s", 0, 0, 0, false⟩ : Thread)], t'.id = 1 ∧
      t'.replyCount = (0 : Int) + (0 : Int) - (0 : Int) :=
  counter_consistency ⟨"b", false, 500, 100⟩ 1
    ⟨[⟨1, "b", "s", 0, 0, 0, false⟩], [], [], [], []⟩
    ⟨[⟨1, "b", "s", 0, 0, 0, false⟩], [], [], [], []⟩ 0 0
    (ReplyTrace.refl _) ⟨1, "b", "s", 0, 0, 0, false⟩ (by simp) rfl

/-- C3 (counterexample): inserting one media-less reply (N = 1) and then
deleting it (M = 1).  reply_count correctly returns to 0 = N − M, but
image_count drops to −1 although the true count of media-bearing posts
is still 0 — the reply was stored with image_path = '' (non-NULL), so
its deletion decremented image_count. -/
theorem counter_imageCount_counterexample :
    ((deletePost (handlePostTx ⟨[⟨1, "b", "s", 0, 0, 0, false⟩],
          [⟨1, "b", 1, "a", "op", some "", none, some ""⟩], [], [], []⟩
        ⟨"b", false, 500, 100⟩
        ⟨"b", some 1, "anon", "", "hi", false, "", none, ""⟩
        ⟨true, true, true, true, fun _ => true, true⟩ 7).2 2).map
      (fun r => r.1.threads)) =
      some [⟨1, "b", "s", 7, 0, -1, false⟩] := by
  rfl

/-! ## C4: content-addressed dedup -/

theorem find?_append_cases {α : Type} (p : α → Bool) (l1 l2 : List α) :
    (l1 ++ l2).find? p =
      match l1.find? p with
      | some a => some a
      | none => l2.find? p := by
  induction l1 with
  | nil => simp
  | cons x xs ih =>
      cases hx : p x with
      | true => simp [List.find?_cons, hx]
      | false =>
          simp only [List.cons_append, List.find?_cons, hx]
          exact ih

theorem processImage_gates {Img : Type} (codec : Codec Img) (db : DB)
    (data : List Nat) (nano : Nat)
    (hne : data.length ≠ 0) (hsize : data.length ≤ maxFileSize)
    (hall : (allowedImageTypes.contains (codec.sniff data)
      || allowedVideoTypes.contains (codec.sniff data)) = true) :
    processImage codec db data nano =
      (match db.posts.find? (fun p => p.imageHash = some (codec.hashHex data))
          with
       | some q =>
           if q.imagePath.isSome then
             (.accepted (q.imagePath.getD "") q.thumbPath (codec.hashHex data),
               [])
           else processImageSave codec data nano (codec.sniff data)
             (codec.hashHex data)
       | none => processImageSave codec data nano (codec.sniff data)
           (codec.hashHex data)) := by
  unfold processImage
  rw [if_neg (by omega : ¬ data.length > maxFileSize)]
  rw [if_neg hne]
  dsimp only
  simp only [hall, Bool.not_true, Bool.false_eq_true, if_false]

theorem uploadAndPost_accepted {Img : Type} (codec : Codec Img) (db : DB)
    (data : List Nat) (nano : Nat) (path : String) (thumb : Option String)
    (h : String) (evs : List SaveEvent)
    (hpi : processImage codec db data nano = (.accepted path thumb h, evs)) :
    uploadAndPost codec db data nano =
      ({ db with posts := db.posts ++
          [⟨nextId (db.posts.map (·.id)), "b", 1, "", "", some path, thumb,
            some h⟩] }, evs) := by
  unfold uploadAndPost
  rw [hpi]

theorem processImageSave_spec {Img : Type} (codec : Codec Img)
    (data : List Nat) (nano : Nat) (ct h : String) :
    ∃ thumbOpt evs,
      processImageSave codec data nano ct h =
        (.accepted ("/uploads/" ++ (toString nano ++ "_" ++ h.take 12
            ++ extFor ct)) thumbOpt h, evs) ∧
      mainSaves evs =
        [SaveEvent.saveMain (toString nano ++ "_" ++ h.take 12 ++ extFor ct)
          data ct] := by
  unfold processImageSave
  dsimp only
  split
  · split
    · exact ⟨_, _, rfl, by simp [mainSaves]⟩
    · exact ⟨_, _, rfl, by simp [mainSaves]⟩
  · exact ⟨_, _, rfl, by simp [mainSaves]⟩

/-- C4: two successful uploads of byte-identical content store the main
asset at most once.  Each upload's post carries the same content hash
and a byte-identical image_path; the second upload reuses the stored
path via the hash query instead of saving again, and when the hash is
new to the system the combined trace holds exactly one main-asset save,
whose bytes are the raw upload. -/
theorem dedup_invariant {Img : Type} (codec : Codec Img) (db : DB)
    (data : List Nat) (n1 n2 : Nat)
    (hne : data.length ≠ 0) (hsize : data.length ≤ maxFileSize)
    (hall : (allowedImageTypes.contains (codec.sniff data)
      || allowedVideoTypes.contains (codec.sniff data)) = true)
    (hvalid : ∀ p ∈ db.posts, p.imageHash = some (codec.hashHex data) →
      p.imagePath.isSome = true) :
    ∃ p1 p2,
      (uploadAndPost codec db data n1).1.posts = db.posts ++ [p1] ∧
      (uploadAndPost codec (uploadAndPost codec db data n1).1 data n2).1.posts
        = db.posts ++ [p1, p2] ∧
      p1.imageHash = some (codec.hashHex data) ∧
      p2.imageHash = some (codec.hashHex data) ∧
      p2.imagePath = p1.imagePath ∧ p1.imagePath.isSome = true ∧
      (mainSaves ((uploadAndPost codec db data n1).2 ++
        (uploadAndPost codec (uploadAndPost codec db data n1).1 data n2).2)).length
        ≤ 1 ∧
      ((∀ p ∈ db.posts, p.imageHash ≠ some (codec.hashHex data)) →
        mainSaves ((uploadAndPost codec db data n1).2 ++
          (uploadAndPost codec (uploadAndPost codec db data n1).1 data n2).2) =
          [SaveEvent.saveMain (toString n1 ++ "_"
            ++ ((codec.hashHex data).take 12) ++ extFor (codec.sniff data))
            data (codec.sniff data)]) := by
  have hpi1 := processImage_gates codec db data n1 hne hsize hall
  rcases hfind : db.posts.find?
      (fun p => p.imageHash = some (codec.hashHex data)) with _ | q
  · rw [hfind] at hpi1
    dsimp only at hpi1
    obtain ⟨thumbOpt, evs, hsave, hmain⟩ :=
      processImageSave_spec codec data n1 (codec.sniff data)
        (codec.hashHex data)
    rw [hsave] at hpi1
    have hup1 := uploadAndPost_accepted codec db data n1 _ _ _ _ hpi1
    set p1 : Post := ⟨nextId (db.posts.map (·.id)), "b", 1, "", "",
      some ("/uploads/" ++ (toString n1 ++ "_"
        ++ (codec.hashHex data).take 12 ++ extFor (codec.sniff data))),
      thumbOpt, some (codec.hashHex data)⟩ with hp1def
    have hdb1posts : (uploadAndPost codec db data n1).1.posts =
        db.posts ++ [p1] := by
      rw [hup1]
    have hfind2 : (uploadAndPost codec db data n1).1.posts.find?
        (fun p => p.imageHash = some (codec.hashHex data)) = some p1 := by
      rw [hdb1posts, find?_append_cases, hfind]
      simp [hp1def]
    have hpi2 := processImage_gates codec (uploadAndPost codec db data n1).1
      data n2 hne hsize hall
    rw [hfind2] at hpi2
    dsimp only at hpi2
    have hp1some : p1.imagePath.isSome = true := rfl
    rw [if_pos hp1some] at hpi2
    have hup2 := uploadAndPost_accepted codec (uploadAndPost codec db data n1).1
      data n2 _ _ _ _ hpi2
    refine ⟨p1, ⟨nextId ((uploadAndPost codec db data n1).1.posts.map (·.id)),
      "b", 1, "", "", some (p1.imagePath.getD ""), p1.thumbPath,
      some (codec.hashHex data)⟩, hdb1posts, ?_, rfl, rfl, rfl, hp1some,
      ?_, ?_⟩
    · rw [hup2]
      dsimp only
      rw [hdb1posts, List.append_assoc]
      rfl
    · rw [hup2, hup1]
      dsimp only
      rw [List.append_nil, hmain]
      simp
    · intro _
      rw [hup2, hup1]
      dsimp only
      rw [List.append_nil, hmain]
  · have hqmem := List.mem_of_find?_eq_some hfind
    have hqhash : q.imageHash = some (codec.hashHex data) := by
      have := List.find?_some hfind
      simpa using this
    have hqsome := hvalid q hqmem hqhash
    rw [hfind] at hpi1
    dsimp only at hpi1
    rw [if_pos hqsome] at hpi1
    have hup1 := uploadAndPost_accepted codec db data n1 _ _ _ _ hpi1
    set p1 : Post := ⟨nextId (db.posts.map (·.id)), "b", 1, "", "",
      some (q.imagePath.getD ""), q.thumbPath,
      some (codec.hashHex data)⟩ with hp1def
    have hdb1posts : (uploadAndPost codec db data n1).1.posts =
        db.posts ++ [p1] := by
      rw [hup1]
    have hfind2 : (uploadAndPost codec db data n1).1.posts.find?
        (fun p => p.imageHash = some (codec.hashHex data)) = some q := by
      rw [hdb1posts, find?_append_cases, hfind]
    have hpi2 := processImage_gates codec (uploadAndPost codec db data n1).1
      data n2 hne hsize hall
    rw [hfind2] at hpi2
    dsimp only at hpi2
    rw [if_pos hqsome] at hpi2
    have hup2 := uploadAndPost_accepted codec (uploadAndPost codec db data n1).1
      data n2 _ _ _ _ hpi2
    refine ⟨p1, ⟨nextId ((uploadAndPost codec db data n1).1.posts.map (·.id)),
      "b", 1, "", "", some (q.imagePath.getD ""), q.thumbPath,
      some (codec.hashHex data)⟩, hdb1posts, ?_, rfl, rfl, rfl, rfl, ?_, ?_⟩
    · rw [hup2]
      dsimp only
      rw [hdb1posts, List.append_assoc]
      rfl
    · rw [hup2, hup1]
      simp [mainSaves]
    · intro hnone
      exact absurd hqhash (hnone q hqmem)

/-- A concrete codec for witnesses: every input sniffs as PNG, hashes to
a fixed hex string, decodes, and thumbnails to the byte `[7]`. -/
def pngCodec : Codec Unit :=
  ⟨fun _ => "aaaaaaaaaaaaaa", fun _ => "image/png", fun _ => some (),
    fun i => i, fun _ => [7], fun _ => none⟩

/-- Witness for `dedup_invariant`: a one-byte PNG-sniffed upload into an
empty database, twice. -/
theorem dedup_invariant_witness :
    ∃ p1 p2,
      (uploadAndPost pngCodec ⟨[], [], [], [], []⟩ [1] 0).1.posts =
        [] ++ [p1] ∧
      (uploadAndPost pngCodec
        (uploadAndPost pngCodec ⟨[], [], [], [], []⟩ [1] 0).1 [1] 1).1.posts
        = [] ++ [p1, p2] ∧
      p1.imageHash = some (pngCodec.hashHex [1]) ∧
      p2.imageHash = some (pngCodec.hashHex [1]) ∧
      p2.imagePath = p1.imagePath ∧ p1.imagePath.isSome = true ∧
      (mainSaves ((uploadAndPost pngCodec ⟨[], [], [], [], []⟩ [1] 0).2 ++
        (uploadAndPost pngCodec
          (uploadAndPost pngCodec ⟨[], [], [], [], []⟩ [1] 0).1 [1] 1).2)).length
        ≤ 1 ∧
      ((∀ p ∈ ([] : List Post), p.imageHash ≠ some (pngCodec.hashHex [1])) →
        mainSaves ((uploadAndPost pngCodec ⟨[], [], [], [], []⟩ [1] 0).2 ++
          (uploadAndPost pngCodec
            (uploadAndPost pngCodec ⟨[], [], [], [], []⟩ [1] 0).1 [1] 1).2) =
          [SaveEvent.saveMain (toString 0 ++ "_"
            ++ ((pngCodec.hashHex [1]).take 12) ++ extFor (pngCodec.sniff [1]))
            [1] (pngCodec.sniff [1])]) :=
  dedup_invariant pngCodec ⟨[], [], [], [], []⟩ [1] 0 1 (by simp)
    (by norm_num [maxFileSize]) (by decide) (by intro p hp; simp at hp)

/-! ## C9: what the media pipeline stores -/

/-- A concrete codec whose inputs sniff as GIF. -/
def gifCodec : Codec Unit :=
  ⟨fun _ => "bbbbbbbbbbbbbb", fun _ => "image/gif", fun _ => some (),
    fun i => i, fun _ => [9], fun _ => none⟩

/-- C9 (counterexample): an accepted, non-duplicate GIF upload.  The
claim requires the stored main asset to be the decoded image re-encoded
to JPEG (GIF is not PNG); the code instead saves the raw upload bytes
unchanged, under content type image/gif and a `.gif` filename. -/
theorem processImage_stores_raw_counterexample :
    (processImage gifCodec ⟨[], [], [], [], []⟩ [1, 2, 3] 5).2 =
      [SaveEvent.saveMain "5_bbbbbbbbbbbb.gif" [1, 2, 3] "image/gif",
       SaveEvent.saveThumb "5_bbbbbbbbbbbb_thumb.jpeg" [9]] ∧
    ("image/gif" : String) ≠ "image/jpeg" := by
  refine ⟨by decide, by decide⟩

/-- C9 (amended): for every accepted, non-duplicate image upload the
main asset is stored as the raw uploaded bytes, unmodified, under the
sniffed content type and its matching extension (PNG stays .png, but a
GIF stays .gif and WebP stays .webp — nothing is re-encoded and no
maximum width/height resize happens on this path); only the thumbnail
is built from the image decoded with EXIF-orientation correction,
fitted into the thumbnail bounding box and JPEG-encoded at reduced
quality. -/
theorem processImage_saves_raw {Img : Type} (codec : Codec Img) (db : DB)
    (data : List Nat) (nano : Nat)
    (hne : data.length ≠ 0) (hsize : data.length ≤ maxFileSize)
    (himg : allowedImageTypes.contains (codec.sniff data) = true)
    (hnodup : db.posts.find?
      (fun p => p.imageHash = some (codec.hashHex data)) = none) :
    mainSaves (processImage codec db data nano).2 =
      [SaveEvent.saveMain (toString nano ++ "_"
        ++ ((codec.hashHex data).take 12) ++ extFor (codec.sniff data))
        data (codec.sniff data)] ∧
    (∀ nm td, SaveEvent.saveThumb nm td ∈ (processImage codec db data nano).2 →
      ∃ img, codec.decodeOriented data = some img ∧
        td = codec.jpegEncode85 (codec.fitThumb img)) := by
  have hvid : allowedVideoTypes.contains (codec.sniff data) = false := by
    have hm : codec.sniff data ∈ allowedImageTypes := by simpa using himg
    unfold allowedImageTypes at hm
    simp only [List.mem_cons, List.not_mem_nil, or_false] at hm
    rcases hm with h | h | h | h <;> rw [h] <;> rfl
  have hall : (allowedImageTypes.contains (codec.sniff data)
      || allowedVideoTypes.contains (codec.sniff data)) = true := by
    rw [himg]
    rfl
  have hpi := processImage_gates codec db data nano hne hsize hall
  rw [hnodup] at hpi
  dsimp only at hpi
  rw [hpi]
  constructor
  · obtain ⟨thumbOpt, evs, hsave, hmain⟩ :=
      processImageSave_spec codec data nano (codec.sniff data)
        (codec.hashHex data)
    rw [hsave]
    exact hmain
  · intro nm td hmem
    unfold processImageSave at hmem
    dsimp only at hmem
    rw [hvid] at hmem
    simp only [Bool.false_eq_true, if_false] at hmem
    rcases hdec : codec.decodeOriented data with _ | img <;> rw [hdec] at hmem
    · simp at hmem
    · dsimp only at hmem
      by_cases hlen : (codec.jpegEncode85 (codec.fitThumb img)).length > 0
      · rw [if_pos hlen] at hmem
        simp only [List.mem_cons, List.not_mem_nil, or_false] at hmem
        rcases hmem with hmem | hmem
        · exact absurd hmem (by simp)
        · exact ⟨img, rfl, (SaveEvent.saveThumb.inj hmem).2⟩
      · rw [if_neg hlen] at hmem
        simp at hmem

/-- Witness for `processImage_saves_raw`: the one-byte PNG upload. -/
theorem processImage_saves_raw_witness :
    mainSaves (processImage pngCodec ⟨[], [], [], [], []⟩ [1] 4).2 =
      [SaveEvent.saveMain (toString 4 ++ "_"
        ++ ((pngCodec.hashHex [1]).take 12) ++ extFor (pngCodec.sniff [1]))
        [1] (pngCodec.sniff [1])] :=
  (processImage_saves_raw pngCodec ⟨[], [], [], [], []⟩ [1] 4 (by simp)
    (by norm_num [maxFileSize]) (by decide) (by rfl)).1

/-! ## C10: greentext versus backlink anchors in processContent -/

/-- Content free of the markdown delimiter characters, on which
applyMarkdownFormatting is the identity. -/
def noDelims (l : List Char) : Bool :=
  l.all (fun c => c ≠ '*' && c ≠ '_' && c ≠ '~' && c ≠ '|')

/-- An escaped line beginning with a post-reference marker: the escaped
`>>` followed by at least one digit. -/
def refStart (el : List Char) : Bool :=
  quoteMarker.isPrefixOf el &&
    (match el.drop 8 with
     | c :: _ => c.isDigit
     | [] => false)

theorem isPrefixOf_append_self (l t : List Char) :
    l.isPrefixOf (l ++ t) = true := by
  induction l with
  | nil => simp
  | cons c rest ih => simpa [List.isPrefixOf] using ih

theorem isPrefixOf_shift (k p s : List Char) :
    (k ++ p).isPrefixOf (k ++ s) = p.isPrefixOf s := by
  induction k with
  | nil => rfl
  | cons c rest ih => simpa [List.isPrefixOf] using ih

theorem isPrefixOf_take {p l : List Char} (h : p.isPrefixOf l = true) :
    l.take p.length = p := by
  induction p generalizing l with
  | nil => simp
  | cons c rest ih =>
      cases l with
      | nil => simp [List.isPrefixOf] at h
      | cons x xs =>
          simp only [List.isPrefixOf, Bool.and_eq_true, beq_iff_eq] at h
          simp [h.1, ih h.2]

theorem take_isPrefixOf {p l : List Char} (h : l.take p.length = p) :
    p.isPrefixOf l = true := by
  induction p generalizing l with
  | nil => simp
  | cons c rest ih =>
      cases l with
      | nil => simp at h
      | cons x xs =>
          simp only [List.length_cons, List.take_succ_cons,
            List.cons.injEq] at h
          simp [List.isPrefixOf, h.1, ih h.2]

/-- Prepend a newline-free chunk onto the first line of a split. -/
def consHead (k : List Char) : List (List Char) → List (List Char)
  | [] => [k]
  | line :: rls => (k ++ line) :: rls

theorem splitLines_ne_nil (l : List Char) : splitLines l ≠ [] := by
  cases l with
  | nil => simp [splitLines]
  | cons c rest =>
      by_cases hc : c = '\n'
      · simp [splitLines, hc]
      · simp only [splitLines, if_neg hc]
        rcases splitLines rest with _ | ⟨line, rls⟩ <;> simp

theorem splitLines_cons_nl (t : List Char) :
    splitLines ('\n' :: t) = [] :: splitLines t := by
  simp [splitLines]

theorem splitLines_cons_ne {c : Char} (t : List Char) (h : c ≠ '\n') :
    splitLines (c :: t) = consHead [c] (splitLines t) := by
  simp only [splitLines, if_neg h]
  rcases splitLines t with _ | ⟨line, rls⟩ <;> simp [consHead]

theorem consHead_consHead (c : Char) (k : List Char)
    (s : List (List Char)) :
    consHead [c] (consHead k s) = consHead (c :: k) s := by
  rcases s with _ | ⟨line, rls⟩ <;> simp [consHead]

theorem splitLines_append {k : List Char} (hk : '\n' ∉ k) (t : List Char) :
    splitLines (k ++ t) = consHead k (splitLines t) := by
  induction k with
  | nil =>
      rcases hs : splitLines t with _ | ⟨line, rls⟩
      · exact absurd hs (splitLines_ne_nil t)
      · simp only [List.nil_append]
        rw [hs]
        simp [consHead]
  | cons c rest ih =>
      have hc : c ≠ '\n' := fun he => hk (by simp [he])
      rw [List.cons_append, splitLines_cons_ne _ hc,
        ih (fun hm => hk (by simp [hm])), consHead_consHead]

theorem splitLines_no_nl {k : List Char} (hk : '\n' ∉ k) :
    splitLines k = [k] := by
  have := splitLines_append hk []
  simpa [splitLines, consHead] using this

theorem splitLines_chunk_nl {k : List Char} (hk : '\n' ∉ k) (t : List Char) :
    splitLines (k ++ '\n' :: t) = k :: splitLines t := by
  rw [splitLines_append hk, splitLines_cons_nl]
  simp [consHead]

theorem escapeChar_no_lt (c : Char) : '<' ∉ escapeChar c := by
  unfold escapeChar
  by_cases h1 : c = '&'
  · simp [h1]
  by_cases h2 : c = '\''
  · simp [h1, h2]
  by_cases h3 : c = '<'
  · simp [h1, h2, h3]
  by_cases h4 : c = '>'
  · simp [h1, h2, h3, h4]
  by_cases h5 : c = '"'
  · simp [h1, h2, h3, h4, h5]
  · simp [h1, h2, h3, h4, h5]
    exact fun he => h3 he.symm

theorem escapeList_no_lt (l : List Char) : '<' ∉ escapeList l := by
  induction l with
  | nil => simp [escapeList]
  | cons c rest ih =>
      show '<' ∉ escapeChar c ++ escapeList rest
      simp only [List.mem_append]
      rintro (h | h)
      · exact escapeChar_no_lt c h
      · exact ih h

theorem escapeChar_nl (c : Char) (h : c ≠ '\n') : '\n' ∉ escapeChar c := by
  unfold escapeChar
  by_cases h1 : c = '&'
  · simp [h1]
  by_cases h2 : c = '\''
  · simp [h1, h2]
  by_cases h3 : c = '<'
  · simp [h1, h2, h3]
  by_cases h4 : c = '>'
  · simp [h1, h2, h3, h4]
  by_cases h5 : c = '"'
  · simp [h1, h2, h3, h4, h5]
  · simp [h1, h2, h3, h4, h5]
    exact fun he => h he.symm

theorem escapeChar_nl_self : escapeChar '\n' = ['\n'] := by
  decide

theorem escapeList_nil : escapeList [] = [] := rfl

theorem escapeList_cons (c : Char) (l : List Char) :
    escapeList (c :: l) = escapeChar c ++ escapeList l := rfl

theorem map_escapeList_consHead (c : Char) (s : List (List Char)) :
    (consHead [c] s).map escapeList =
      consHead (escapeChar c) (s.map escapeList) := by
  rcases s with _ | ⟨line, rls⟩ <;>
    simp [consHead, escapeList_cons, escapeList_nil]

theorem splitLines_escape (l : List Char) :
    splitLines (escapeList l) = (splitLines l).map escapeList := by
  induction l with
  | nil => rfl
  | cons c rest ih =>
      rw [escapeList_cons]
      by_cases hc : c = '\n'
      · subst hc
        rw [escapeChar_nl_self]
        show splitLines ('\n' :: escapeList rest) = _
        rw [splitLines_cons_nl, splitLines_cons_nl, ih]
        rfl
      · rw [splitLines_append (escapeChar_nl c hc), ih,
          splitLines_cons_ne _ hc, map_escapeList_consHead]

theorem replaceDouble_id (d : Char) (pre post l : List Char)
    (h : ∀ c ∈ l, c ≠ d) : replaceDouble d pre post l = l := by
  induction l with
  | nil => simp [replaceDouble]
  | cons c rest ih =>
      have hc : c ≠ d := h c (by simp)
      rw [replaceDouble.eq_def]
      dsimp only
      rw [if_neg hc, ih (fun x hx => h x (List.mem_cons_of_mem c hx))]

theorem replaceSingle_id (d : Char) (pre post l : List Char)
    (h : ∀ c ∈ l, c ≠ d) : replaceSingle d pre post l = l := by
  induction l with
  | nil => simp [replaceSingle]
  | cons c rest ih =>
      have hc : c ≠ d := h c (by simp)
      rw [replaceSingle.eq_def]
      dsimp only
      rw [if_neg hc, ih (fun x hx => h x (List.mem_cons_of_mem c hx))]

theorem applyMarkdownFormatting_id (l : List Char)
    (h : ∀ c ∈ l, c ≠ '*' ∧ c ≠ '_' ∧ c ≠ '~' ∧ c ≠ '|') :
    applyMarkdownFormatting l = l := by
  unfold applyMarkdownFormatting
  dsimp only
  rw [replaceDouble_id _ _ _ _ (fun c hc => (h c hc).2.2.2)]
  rw [replaceDouble_id _ _ _ _ (fun c hc => (h c hc).2.2.1)]
  rw [replaceDouble_id _ _ _ _ (fun c hc => (h c hc).1)]
  rw [replaceDouble_id _ _ _ _ (fun c hc => (h c hc).2.1)]
  rw [replaceSingle_id _ _ _ _ (fun c hc => (h c hc).1)]
  rw [replaceSingle_id _ _ _ _ (fun c hc => (h c hc).2.1)]

theorem escapeChar_delims (c : Char)
    (h : c ≠ '*' ∧ c ≠ '_' ∧ c ≠ '~' ∧ c ≠ '|') :
    ∀ x ∈ escapeChar c, x ≠ '*' ∧ x ≠ '_' ∧ x ≠ '~' ∧ x ≠ '|' := by
  unfold escapeChar
  by_cases h1 : c = '&'
  · simp [h1]
  by_cases h2 : c = '\''
  · simp [h1, h2]
  by_cases h3 : c = '<'
  · simp [h1, h2, h3]
  by_cases h4 : c = '>'
  · simp [h1, h2, h3, h4]
  by_cases h5 : c = '"'
  · simp [h1, h2, h3, h4, h5]
  · simp only [h1, h2, h3, h4, h5, if_false, List.mem_singleton]
    intro x hx
    rw [hx]
    exact h

theorem escapeList_delims (l : List Char)
    (h : ∀ c ∈ l, c ≠ '*' ∧ c ≠ '_' ∧ c ≠ '~' ∧ c ≠ '|') :
    ∀ x ∈ escapeList l, x ≠ '*' ∧ x ≠ '_' ∧ x ≠ '~' ∧ x ≠ '|' := by
  induction l with
  | nil => simp [escapeList_nil]
  | cons c rest ih =>
      rw [escapeList_cons]
      intro x hx
      rcases List.mem_append.mp hx with hm | hm
      · exact escapeChar_delims c (h c (by simp)) x hm
      · exact ih (fun y hy => h y (List.mem_cons_of_mem c hy)) x hm

theorem tryRef_some_spec {s ds r : List Char} (h : tryRef s = some (ds, r)) :
    s.take 8 = quoteMarker ∧ ds = (s.drop 8).takeWhile (·.isDigit) ∧
      ds ≠ [] ∧ r = s.drop (8 + ds.length) := by
  unfold tryRef at h
  split at h
  · rename_i htake
    dsimp only at h
    split at h
    · exact absurd h (by simp)
    · rename_i hds
      obtain ⟨h1, h2⟩ := Prod.mk.inj (Option.some.inj h)
      exact ⟨htake, h1.symm, by rw [h1] at hds; exact hds,
        by rw [← h2, h1]⟩
  · exact absurd h (by simp)

theorem tryRef_none_marker {s : List Char}
    (hm : ¬ s.take 8 = quoteMarker) : tryRef s = none := by
  unfold tryRef
  rw [if_neg hm]

theorem tryRef_none_head {c : Char} (rest : List Char) (h : c ≠ '&') :
    tryRef (c :: rest) = none := by
  apply tryRef_none_marker
  intro heq
  rw [List.take_cons (by decide : (0:Nat) < 8)] at heq
  exact h (List.cons.inj heq).1

theorem takeWhile_append_stop (p : Char → Bool) {c : Char}
    (h : p c = false) (xs b : List Char) :
    (xs ++ c :: b).takeWhile p = xs.takeWhile p := by
  induction xs with
  | nil => simp [List.takeWhile_cons, h]
  | cons x xs' ih =>
      cases hx : p x <;> simp [List.takeWhile_cons, hx, ih]

theorem linkify_nil : linkifyRefs [] = [] := by
  simp [linkifyRefs]

theorem linkify_eq_some {c : Char} {rest ds r : List Char}
    (h : tryRef (c :: rest) = some (ds, r)) :
    linkifyRefs (c :: rest) = anchorFor ds ++ linkifyRefs r := by
  simp only [linkifyRefs]
  split
  · rename_i ds' r' h'
    rw [h] at h'
    obtain ⟨h1, h2⟩ := Prod.mk.inj (Option.some.inj h')
    rw [← h1, ← h2]
  · rename_i h'
    rw [h] at h'
    exact absurd h' (by simp)

theorem linkify_eq_none {c : Char} {rest : List Char}
    (h : tryRef (c :: rest) = none) :
    linkifyRefs (c :: rest) = c :: linkifyRefs rest := by
  simp only [linkifyRefs]
  split
  · rename_i ds' r' h'
    rw [h] at h'
    exact absurd h' (by simp)
  · rfl

theorem linkify_eq_some' {el ds r : List Char} (h : tryRef el = some (ds, r)) :
    linkifyRefs el = anchorFor ds ++ linkifyRefs r := by
  cases el with
  | nil => simp [tryRef, quoteMarker] at h
  | cons c rest => exact linkify_eq_some h

theorem length_takeWhile_le (p : Char → Bool) (l : List Char) :
    (l.takeWhile p).length ≤ l.length := by
  induction l with
  | nil => simp
  | cons c rest ih =>
      cases hc : p c
      · simp [List.takeWhile_cons, hc]
      · simp only [List.takeWhile_cons, hc, if_true, List.length_cons]
        omega

theorem take8_le {a : List Char} (h : a.take 8 = quoteMarker) :
    8 ≤ a.length := by
  have hlen := congrArg List.length h
  rw [List.length_take] at hlen
  have h2 : quoteMarker.length = 8 := rfl
  rw [h2] at hlen
  omega

theorem tryRef_digits {s ds r : List Char} (h : tryRef s = some (ds, r)) :
    ∀ c ∈ ds, c.isDigit = true := by
  obtain ⟨_, hds, _, _⟩ := tryRef_some_spec h
  intro c hc
  rw [hds] at hc
  exact List.mem_takeWhile_imp hc

theorem tryRef_sub {s ds r : List Char} (h : tryRef s = some (ds, r)) :
    ∀ c ∈ r, c ∈ s := by
  obtain ⟨_, _, _, hr⟩ := tryRef_some_spec h
  intro c hc
  rw [hr] at hc
  exact List.drop_subset _ _ hc

theorem anchorFor_no_nl {ds : List Char} (hd : ∀ c ∈ ds, c.isDigit = true) :
    '\n' ∉ anchorFor ds := by
  unfold anchorFor anchorHead
  intro hm
  simp only [List.mem_append, List.mem_cons] at hm
  have hds : '\n' ∉ ds := by
    intro hx
    have := hd _ hx
    simp at this
  rcases hm with ((((((h | h) | h) | h) | h) | h) | h)
  · rcases h with h | h | h
    · exact absurd h (by decide)
    · exact absurd h (by decide)
    · exact absurd h (by decide)
  · exact hds h
  · exact absurd h (by decide)
  · exact hds h
  · exact absurd h (by decide)
  · exact hds h
  · exact absurd h (by decide)

theorem linkify_no_nl_fuel : ∀ (n : Nat) (s : List Char), s.length ≤ n →
    '\n' ∉ s → '\n' ∉ linkifyRefs s := by
  intro n
  induction n with
  | zero =>
      intro s hl _
      have hs : s = [] := List.length_eq_zero.mp (Nat.le_zero.mp hl)
      rw [hs, linkify_nil]
      simp
  | succ n ih =>
      intro s hl hn
      cases s with
      | nil => rw [linkify_nil]; simp
      | cons c rest =>
          cases htr : tryRef (c :: rest) with
          | some p =>
              obtain ⟨ds, r⟩ := p
              rw [linkify_eq_some htr]
              intro hm
              rcases List.mem_append.mp hm with hm | hm
              · exact anchorFor_no_nl (tryRef_digits htr) hm
              · have hrlen : r.length ≤ n := by
                  have h1 := tryRef_shrink htr
                  simp only [List.length_cons] at h1 hl
                  omega
                exact ih r hrlen (fun hx => hn (tryRef_sub htr _ hx)) hm
          | none =>
              rw [linkify_eq_none htr]
              intro hm
              rcases List.mem_cons.mp hm with hm | hm
              · exact hn (List.mem_cons.mpr (Or.inl hm))
              · have hrl : rest.length ≤ n := by
                  simp only [List.length_cons] at hl
                  omega
                exact ih rest hrl (fun hx => hn (by simp [hx])) hm

theorem linkify_no_nl {s : List Char} (hn : '\n' ∉ s) :
    '\n' ∉ linkifyRefs s :=
  linkify_no_nl_fuel s.length s le_rfl hn

theorem tryRef_append_nl_some {a ds r : List Char} (b : List Char)
    (h : tryRef a = some (ds, r)) :
    tryRef (a ++ '\n' :: b) = some (ds, r ++ '\n' :: b) := by
  obtain ⟨htake, hds, hne, hr⟩ := tryRef_some_spec h
  have h8 : 8 ≤ a.length := take8_le htake
  have htake2 : (a ++ '\n' :: b).take 8 = quoteMarker := by
    rw [List.take_append_eq_append_take, Nat.sub_eq_zero_of_le h8]
    simp [htake]
  have hdrop8 : (a ++ '\n' :: b).drop 8 = a.drop 8 ++ '\n' :: b := by
    rw [List.drop_append_eq_append_drop, Nat.sub_eq_zero_of_le h8,
      List.drop_zero]
  have htw : ((a ++ '\n' :: b).drop 8).takeWhile (·.isDigit)
      = (a.drop 8).takeWhile (·.isDigit) := by
    rw [hdrop8]
    exact takeWhile_append_stop _ (by decide) _ _
  have hlen : 8 + ds.length ≤ a.length := by
    have h1 : ds.length ≤ (a.drop 8).length := by
      rw [hds]
      exact length_takeWhile_le _ _
    simp only [List.length_drop] at h1
    omega
  unfold tryRef
  rw [if_pos htake2]
  dsimp only
  rw [htw, ← hds, if_neg hne]
  have hdropfull : (a ++ '\n' :: b).drop (8 + ds.length)
      = a.drop (8 + ds.length) ++ '\n' :: b := by
    rw [List.drop_append_eq_append_drop, Nat.sub_eq_zero_of_le hlen,
      List.drop_zero]
  rw [hdropfull, ← hr]

theorem tryRef_append_nl_none {a : List Char} (b : List Char)
    (h : tryRef a = none) :
    tryRef (a ++ '\n' :: b) = none := by
  by_cases h8 : 8 ≤ a.length
  · have htake2 : (a ++ '\n' :: b).take 8 = a.take 8 := by
      rw [List.take_append_eq_append_take, Nat.sub_eq_zero_of_le h8,
        List.take_zero, List.append_nil]
    have hdrop8 : (a ++ '\n' :: b).drop 8 = a.drop 8 ++ '\n' :: b := by
      rw [List.drop_append_eq_append_drop, Nat.sub_eq_zero_of_le h8,
        List.drop_zero]
    unfold tryRef at h ⊢
    rw [htake2]
    split at h
    · rename_i htake
      rw [if_pos htake]
      dsimp only at h ⊢
      rw [hdrop8, takeWhile_append_stop _ (by decide) _ _]
      split at h
      · rename_i hds
        rw [if_pos hds]
      · exact absurd h (by simp)
    · rename_i htake
      rw [if_neg htake]
  · apply tryRef_none_marker
    intro heq
    have hpos : 0 < 8 - a.length := by omega
    have hmem : '\n' ∈ (a ++ '\n' :: b).take 8 := by
      rcases hk : 8 - a.length with _ | k
      · omega
      · rw [List.take_append_eq_append_take, hk]
        simp
    rw [heq] at hmem
    exact absurd hmem (by decide)

theorem linkify_append_nl_fuel : ∀ (n : Nat) (a b : List Char),
    a.length ≤ n →
    linkifyRefs (a ++ '\n' :: b) = linkifyRefs a ++ '\n' :: linkifyRefs b := by
  intro n
  induction n with
  | zero =>
      intro a b hl
      have ha : a = [] := List.length_eq_zero.mp (Nat.le_zero.mp hl)
      subst ha
      simp only [List.nil_append, linkify_nil]
      exact linkify_eq_none (tryRef_none_head b (by decide))
  | succ n ih =>
      intro a b hl
      cases a with
      | nil =>
          simp only [List.nil_append, linkify_nil]
          exact linkify_eq_none (tryRef_none_head b (by decide))
      | cons c rest =>
          cases htr : tryRef (c :: rest) with
          | some p =>
              obtain ⟨ds, r⟩ := p
              have h2 := tryRef_append_nl_some b htr
              rw [List.cons_append] at h2 ⊢
              rw [linkify_eq_some h2, linkify_eq_some htr]
              have hr : r.length ≤ n := by
                have h1 := tryRef_shrink htr
                simp only [List.length_cons] at h1 hl
                omega
              rw [ih r b hr, List.append_assoc]
          | none =>
              have h2 := tryRef_append_nl_none b htr
              rw [List.cons_append] at h2 ⊢
              rw [linkify_eq_none h2, linkify_eq_none htr]
              have hrl : rest.length ≤ n := by
                simp only [List.length_cons] at hl
                omega
              rw [ih rest b hrl, List.cons_append]

theorem linkify_append_nl (a b : List Char) :
    linkifyRefs (a ++ '\n' :: b) = linkifyRefs a ++ '\n' :: linkifyRefs b :=
  linkify_append_nl_fuel a.length a b le_rfl

theorem exists_nl_split {s : List Char} (h : '\n' ∈ s) :
    ∃ a t, s = a ++ '\n' :: t ∧ '\n' ∉ a := by
  induction s with
  | nil => simp at h
  | cons c rest ih =>
      by_cases hc : c = '\n'
      · exact ⟨[], rest, by rw [hc, List.nil_append], by simp⟩
      · have hm : '\n' ∈ rest := by
          rcases List.mem_cons.mp h with h0 | h0
          · exact absurd h0.symm hc
          · exact h0
        obtain ⟨a, t, heq, hna⟩ := ih hm
        refine ⟨c :: a, t, by rw [heq, List.cons_append], ?_⟩
        intro hx
        rcases List.mem_cons.mp hx with h0 | h0
        · exact hc h0.symm
        · exact hna h0

theorem linkify_splitLines_fuel : ∀ (n : Nat) (s : List Char),
    s.length ≤ n →
    splitLines (linkifyRefs s) = (splitLines s).map linkifyRefs := by
  intro n
  induction n with
  | zero =>
      intro s hl
      have hs : s = [] := List.length_eq_zero.mp (Nat.le_zero.mp hl)
      subst hs
      rw [linkify_nil]
      simp [splitLines, linkify_nil]
  | succ n ih =>
      intro s hl
      by_cases hnl : '\n' ∈ s
      · obtain ⟨a, t, rfl, hna⟩ := exists_nl_split hnl
        have hlt : t.length ≤ n := by
          simp only [List.length_append, List.length_cons] at hl
          omega
        rw [linkify_append_nl a t,
          splitLines_chunk_nl (linkify_no_nl hna) (linkifyRefs t),
          ih t hlt, splitLines_chunk_nl hna t, List.map_cons]
      · rw [splitLines_no_nl hnl, splitLines_no_nl (linkify_no_nl hnl)]
        simp

theorem linkify_splitLines (s : List Char) :
    splitLines (linkifyRefs s) = (splitLines s).map linkifyRefs :=
  linkify_splitLines_fuel s.length s le_rfl

theorem isPrefixOf_cons_cons (a b : Char) (p l : List Char) :
    (a :: p).isPrefixOf (b :: l) = ((a == b) && p.isPrefixOf l) := rfl

theorem isPrefixOf_cons_false {a b : Char} (h : (a == b) = false)
    (p l : List Char) : (a :: p).isPrefixOf (b :: l) = false := by
  rw [isPrefixOf_cons_cons, h, Bool.false_and]

theorem anchorFor_append (ds z : List Char) :
    anchorFor ds ++ z = '<' :: 'a' :: (" href=\"#p".data ++ (ds
      ++ ("\" class=\"backlink\" data-post=\"".data ++ (ds
      ++ ("\">&gt;&gt;".data ++ (ds ++ ("</a>".data ++ z))))))) := by
  simp [anchorFor, anchorHead, List.append_assoc]

theorem quoteEsc_not_anchor (ds z : List Char) :
    quoteEsc.isPrefixOf (anchorFor ds ++ z) = false := by
  rw [anchorFor_append]
  unfold quoteEsc
  exact isPrefixOf_cons_false (by decide) _ _

theorem gtOpen_not_anchor (ds z : List Char) :
    gtOpen.isPrefixOf (anchorFor ds ++ z) = false := by
  rw [anchorFor_append]
  unfold gtOpen
  rw [isPrefixOf_cons_cons, isPrefixOf_cons_false (by decide) _ _,
    Bool.and_false]

theorem anchorHead_anchor (ds z : List Char) :
    anchorHead.isPrefixOf (anchorFor ds ++ z) = true := by
  have : anchorFor ds ++ z = anchorHead ++ (ds
      ++ ("\" class=\"backlink\" data-post=\"".data ++ (ds
      ++ ("\">&gt;&gt;".data ++ (ds ++ ("</a>".data ++ z)))))) := by
    simp [anchorFor, List.append_assoc]
  rw [this]
  exact isPrefixOf_append_self _ _

theorem linkify_lit : ∀ (p : List Char), '<' ∉ p →
    ∀ el, p.isPrefixOf (linkifyRefs el) = true → p.isPrefixOf el = true := by
  intro p
  induction p with
  | nil => intro _ el _; simp
  | cons x p' ih =>
      intro hp el h
      cases el with
      | nil =>
          rw [linkify_nil] at h
          simp [List.isPrefixOf] at h
      | cons c rest =>
          cases htr : tryRef (c :: rest) with
          | some pr =>
              obtain ⟨ds, r⟩ := pr
              rw [linkify_eq_some htr, anchorFor_append,
                isPrefixOf_cons_cons, Bool.and_eq_true, beq_iff_eq] at h
              have hx : x = '<' := h.1
              subst hx
              exact absurd (List.mem_cons_self _ _) hp
          | none =>
              rw [linkify_eq_none htr, isPrefixOf_cons_cons,
                Bool.and_eq_true] at h
              obtain ⟨hx, hpre⟩ := h
              rw [isPrefixOf_cons_cons, hx, Bool.true_and]
              exact ih (fun hm => hp (List.mem_cons_of_mem x hm)) rest hpre

theorem refStart_some {el : List Char} (h : refStart el = true) :
    ∃ ds r, tryRef el = some (ds, r) := by
  unfold refStart at h
  rw [Bool.and_eq_true] at h
  obtain ⟨hm, hd⟩ := h
  have htake : el.take 8 = quoteMarker := isPrefixOf_take hm
  unfold tryRef
  rw [if_pos htake]
  dsimp only
  rcases hdrop : el.drop 8 with _ | ⟨c, t⟩
  · rw [hdrop] at hd
    simp at hd
  · rw [hdrop] at hd
    dsimp only at hd
    rw [List.takeWhile_cons_of_pos hd, if_neg (List.cons_ne_nil _ _)]
    exact ⟨_, _, rfl⟩

theorem greentext_line_ref {el : List Char} (h : refStart el = true) :
    anchorHead.isPrefixOf (greentextLine (linkifyRefs el)) = true ∧
    gtOpen.isPrefixOf (greentextLine (linkifyRefs el)) = false := by
  obtain ⟨ds, r, htr⟩ := refStart_some h
  have hline := linkify_eq_some' htr
  have hcond : quoteEsc.isPrefixOf (linkifyRefs el) = false := by
    rw [hline]
    exact quoteEsc_not_anchor ds (linkifyRefs r)
  have hgt : greentextLine (linkifyRefs el) = linkifyRefs el := by
    unfold greentextLine
    rw [hcond]
    simp
  rw [hgt, hline]
  exact ⟨anchorHead_anchor ds (linkifyRefs r),
    gtOpen_not_anchor ds (linkifyRefs r)⟩

theorem greentext_line_wrapped {el : List Char} (hlt : '<' ∉ el)
    (h : gtOpen.isPrefixOf (greentextLine (linkifyRefs el)) = true) :
    quoteEsc.isPrefixOf el = true ∧ refStart el = false := by
  by_cases hc : (quoteEsc.isPrefixOf (linkifyRefs el) &&
      !(quoteMarker.isPrefixOf (linkifyRefs el))) = true
  · rw [Bool.and_eq_true, Bool.not_eq_true'] at hc
    obtain ⟨hq, _⟩ := hc
    refine ⟨linkify_lit quoteEsc (by decide) el hq, ?_⟩
    by_contra hrs
    rw [Bool.not_eq_false] at hrs
    obtain ⟨ds, r, htr⟩ := refStart_some hrs
    rw [linkify_eq_some' htr, quoteEsc_not_anchor] at hq
    exact Bool.false_ne_true hq
  · have hcf : (quoteEsc.isPrefixOf (linkifyRefs el) &&
        !(quoteMarker.isPrefixOf (linkifyRefs el))) = false :=
      Bool.of_not_eq_true hc
    have hgt : greentextLine (linkifyRefs el) = linkifyRefs el := by
      unfold greentextLine
      rw [hcf]
      simp
    rw [hgt] at h
    exfalso
    rcases hel : el with _ | ⟨e, rest⟩
    · rw [hel, linkify_nil] at h
      exact absurd h (by decide)
    · rw [hel] at h
      cases htr : tryRef (e :: rest) with
      | some pr =>
          obtain ⟨ds, r⟩ := pr
          rw [linkify_eq_some htr, gtOpen_not_anchor] at h
          exact Bool.false_ne_true h
      | none =>
          rw [linkify_eq_none htr] at h
          unfold gtOpen at h
          rw [isPrefixOf_cons_cons, Bool.and_eq_true, beq_iff_eq] at h
          apply hlt
          rw [hel, ← h.1]
          exact List.mem_cons_self _ _

theorem greentext_line_quote {el : List Char}
    (hq : quoteEsc.isPrefixOf el = true)
    (hm : quoteMarker.isPrefixOf el = false) :
    gtOpen.isPrefixOf (greentextLine (linkifyRefs el)) = true := by
  have htake : el.take quoteEsc.length = quoteEsc := isPrefixOf_take hq
  obtain ⟨t, rfl⟩ : ∃ t, el = '&' :: 'g' :: 't' :: ';' :: t := by
    refine ⟨el.drop 4, ?_⟩
    conv_lhs => rw [← List.take_append_drop 4 el]
    rw [show el.take 4 = ['&', 'g', 't', ';'] from htake]
    rfl
  have hmt : quoteEsc.isPrefixOf t = false := by
    rw [← hm]
    exact (isPrefixOf_shift quoteEsc quoteEsc t).symm
  have htr0 : tryRef ('&' :: 'g' :: 't' :: ';' :: t) = none := by
    apply tryRef_none_marker
    intro heq
    have heq' : ('&' :: 'g' :: 't' :: ';' :: t).take quoteMarker.length
        = quoteMarker := heq
    have := take_isPrefixOf heq'
    rw [hm] at this
    exact absurd this (by decide)
  have htr1 : tryRef ('g' :: 't' :: ';' :: t) = none :=
    tryRef_none_head _ (by decide)
  have htr2 : tryRef ('t' :: ';' :: t) = none :=
    tryRef_none_head _ (by decide)
  have htr3 : tryRef (';' :: t) = none :=
    tryRef_none_head _ (by decide)
  have hline : linkifyRefs ('&' :: 'g' :: 't' :: ';' :: t)
      = '&' :: 'g' :: 't' :: ';' :: linkifyRefs t := by
    rw [linkify_eq_none htr0, linkify_eq_none htr1, linkify_eq_none htr2,
      linkify_eq_none htr3]
  have hq2 : quoteEsc.isPrefixOf
      (linkifyRefs ('&' :: 'g' :: 't' :: ';' :: t)) = true := by
    rw [hline]
    exact isPrefixOf_append_self quoteEsc (linkifyRefs t)
  have hm2 : quoteMarker.isPrefixOf
      (linkifyRefs ('&' :: 'g' :: 't' :: ';' :: t)) = false := by
    rw [hline]
    have hsh : quoteMarker.isPrefixOf ('&' :: 'g' :: 't' :: ';'
        :: linkifyRefs t) = quoteEsc.isPrefixOf (linkifyRefs t) :=
      isPrefixOf_shift quoteEsc quoteEsc (linkifyRefs t)
    rw [hsh]
    cases hx : quoteEsc.isPrefixOf (linkifyRefs t)
    · rfl
    · have hxt := linkify_lit quoteEsc (by decide) t hx
      rw [hmt] at hxt
      exact absurd hxt (by decide)
  unfold greentextLine
  rw [hq2, hm2]
  simp only [Bool.not_false, Bool.and_true, if_true]
  rw [List.append_assoc]
  exact isPrefixOf_append_self _ _

/-- C10: in processContent (with content free of markdown delimiter
characters, so that the markdown passes are the identity), the escaped
and linkified text is split on newlines and greentext-wrapped per line;
a line whose escaped form begins with the escaped `>>` marker followed
by a digit is rendered as a backlink anchor and is NOT wrapped in the
greentext span, while a wrapped line always begins with a single escaped
`>` that does not start a `>>` post reference; conversely a line
beginning with the escaped `>` but not the full `>>` marker is always
wrapped. -/
theorem processContent_greentext (content : List Char)
    (hd : noDelims content = true) :
    processContent content = joinBr (processLines content) ∧
    processLines content = (splitLines (escapeList content)).map
      (fun el => greentextLine (linkifyRefs el)) ∧
    ∀ el ∈ splitLines (escapeList content),
      (refStart el = true →
        anchorHead.isPrefixOf (greentextLine (linkifyRefs el)) = true ∧
        gtOpen.isPrefixOf (greentextLine (linkifyRefs el)) = false) ∧
      (gtOpen.isPrefixOf (greentextLine (linkifyRefs el)) = true →
        quoteEsc.isPrefixOf el = true ∧ refStart el = false) ∧
      (quoteEsc.isPrefixOf el = true → quoteMarker.isPrefixOf el = false →
        gtOpen.isPrefixOf (greentextLine (linkifyRefs el)) = true) := by
  have hdl : ∀ c ∈ content, c ≠ '*' ∧ c ≠ '_' ∧ c ≠ '~' ∧ c ≠ '|' := by
    intro c hc
    simp only [noDelims, List.all_eq_true, Bool.and_eq_true,
      decide_eq_true_eq] at hd
    obtain ⟨⟨⟨h1, h2⟩, h3⟩, h4⟩ := hd c hc
    exact ⟨h1, h2, h3, h4⟩
  have hmd : applyMarkdownFormatting (escapeList content)
      = escapeList content :=
    applyMarkdownFormatting_id _ (escapeList_delims content hdl)
  refine ⟨rfl, ?_, ?_⟩
  · unfold processLines
    rw [hmd, linkify_splitLines, List.map_map]
    rfl
  · intro el hel
    have hlt : '<' ∉ el := by
      rw [splitLines_escape] at hel
      obtain ⟨raw, _, rfl⟩ := List.mem_map.mp hel
      exact escapeList_no_lt raw
    exact ⟨fun h => greentext_line_ref h,
      fun h => greentext_line_wrapped hlt h,
      fun hq hm => greentext_line_quote hq hm⟩

/-- Witness for C10: the hypothesis holds and the theorem applies on the
concrete content consisting of a reference line and a quote line. -/
theorem processContent_greentext_witness :
    noDelims ">>12\n>hi".data = true ∧
    processContent ">>12\n>hi".data =
      joinBr (processLines ">>12\n>hi".data) :=
  ⟨by decide, (processContent_greentext ">>12\n>hi".data (by decide)).1⟩

end Yib
